import Mathlib

/-!
# Verification of the rideviz-rs processing pipeline

A shallow embedding, in Lean 4, of the parts of the `rideviz-rs` server that
the specification talks about, together with proofs (or refutations) of the
specified properties.

Modelling conventions, used uniformly below:

* Rust `f64`/`f32` values are modelled as exact rationals (`ℚ`).  All the
  floating-point operations the embedded code performs (`+`, `-`, `*`, `/`,
  `floor`, `ceil`, `round`, `clamp`, `min`, `max`, comparisons) are modelled by
  their exact counterparts on `ℚ`.  `f64::EPSILON` is the exact rational
  `2⁻⁵²`.
* The transcendental haversine distance (`sin`, `cos`, `atan2`, `ln` have no
  computable exact model) is abstracted as an explicit parameter
  `d : TrackPoint → TrackPoint → ℚ` of every definition that calls it; the
  theorems that need it only use the fact, true of the real function on the
  source's inputs, that it is nonnegative, and state that fact as an explicit
  hypothesis.
* Rust machine integers (`u16`, `u32`, `u64`, `usize`) are modelled as `ℕ`;
  the accumulator widths in the source are large enough that wrap-around is
  unreachable on the value ranges involved, so no explicit `% 2^w` is needed.
  `saturating_sub` is `ℕ` subtraction, which saturates at `0`.
* `chrono` timestamps are modelled as `ℤ` (seconds); `Instant` and `Duration`
  in the rate limiter are modelled in whole nanoseconds as `ℕ`, with
  `Duration::as_secs` being division by `10⁹`.
* Fallible functions return `Except`/`Option`; `Result::Err` payloads that are
  only human-readable strings are dropped (a `Bool` records ok/err).
-/

namespace Rideviz

/-- Exact model of `f64::EPSILON` (2⁻⁵²). -/
def f64Epsilon : ℚ := 1 / 4503599627370496

/-- Model of `x.clamp(lo, hi)` on `f64` (for `lo ≤ hi`, and away from NaN):
`max lo (min x hi)`. -/
def rclamp (x lo hi : ℚ) : ℚ := max lo (min x hi)

/-- Truncation of a nonnegative rational to `ℕ`, i.e. `x as u32` / `x.floor()`
on a nonnegative `f64`. -/
def qtoNat (q : ℚ) : ℕ := (⌊q⌋).toNat

/-- Model of `x.round()` on a nonnegative `f64` (round half away from zero, which for
nonnegative arguments is `⌊x + 1/2⌋`). -/
def qroundNat (q : ℚ) : ℕ := qtoNat (q + 1/2)

/-- Model of `x.ceil()` on a nonnegative rational, as a natural number. -/
def qceilNat (q : ℚ) : ℕ := (⌈q⌉).toNat

/-! ## Data model (`src/types/activity.rs`)

`TrackPoint` is the parsed sample type.  `lat`/`lon`/`elevation` are `f64`
(modelled as `ℚ`), `time` is an optional timestamp (modelled in whole
seconds as `ℤ`), `heart_rate`/`power`/`cadence` are optional `u16`
(modelled as `ℕ`), `temperature` an optional `f32`. -/

structure TrackPoint where
  lat : ℚ
  lon : ℚ
  elevation : Option ℚ
  time : Option ℤ
  heart_rate : Option ℕ
  power : Option ℕ
  cadence : Option ℕ
  temperature : Option ℚ
deriving DecidableEq, Inhabited, Repr

/-- Model of `Metrics` (`src/types/activity.rs`). -/
structure Metrics where
  distance_km : ℚ
  elevation_gain_m : ℚ
  duration_seconds : ℕ
  avg_speed_kmh : ℚ
  avg_heart_rate : Option ℕ
  max_heart_rate : Option ℕ
  avg_power : Option ℕ
  max_power : Option ℕ
deriving DecidableEq, Inhabited, Repr

/-- Model of `AvailableData` (`src/types/activity.rs`). -/
structure AvailableData where
  has_coordinates : Bool
  has_elevation : Bool
  has_heart_rate : Bool
  has_power : Bool
deriving DecidableEq, Inhabited, Repr

/-- Model of `ProcessedActivity` (`src/types/activity.rs`). -/
structure ProcessedActivity where
  points : List TrackPoint
  metrics : Metrics
  available_data : AvailableData
deriving DecidableEq, Inhabited, Repr

/-- The `ProcessError` variant relevant here (`src/error.rs`). -/
inductive ProcessError where
  | insufficientPoints (n : ℕ)
deriving DecidableEq, Repr

/-! ## Video-export rate limiter (`src/state.rs`, `VideoExportRateLimiter`)

The limiter keeps, per subject key, a `VecDeque<Instant>` of admission
timestamps.  Keys are independent (a `DashMap` entry per key), so we model the
state of a single key: a list of timestamps, front = oldest.  Time is in whole
nanoseconds (`ℕ`); `window` is the configured `Duration` in nanoseconds. -/

/-- Model of `Duration::as_secs`: whole seconds of a nanosecond duration. -/
def nanosPerSec : ℕ := 1000000000

/-- The eviction loop at the head of `VideoExportRateLimiter::check`: pop
from the front while `now.duration_since(front) > window`.  On a list this is
`dropWhile` over the front. -/
def rlDropOld (window now : ℕ) (dq : List ℕ) : List ℕ :=
  dq.dropWhile (fun t => decide (window < now - t))

/-- The denied-branch payload of `check`: seconds until the oldest retained
timestamp leaves the window
(`window.saturating_sub(now.duration_since(oldest)).as_secs()`, with
`unwrap_or(window.as_secs())` when the deque is empty), floored at 1. -/
def rlRetryAfter (window now : ℕ) (kept : List ℕ) : ℕ :=
  max 1 (match kept.head? with
    | some oldest => (window - (now - oldest)) / nanosPerSec
    | none => window / nanosPerSec)

/-- Model of `VideoExportRateLimiter::check` (`src/state.rs` lines 140–178) for one
subject key.  Returns `(result, new deque)`; `none` models `Ok(())`
(admitted), `some r` models `Err(r)` (denied with retry-after `r`).
The final `while entry.len() > self.max_requests` trim loop is `drop` of the
front overflow. -/
def rlCheck (window maxRequests : ℕ) (dq : List ℕ) (now : ℕ) : Option ℕ × List ℕ :=
  if maxRequests = 0 then (none, dq)
  else
    let kept := rlDropOld window now dq
    if maxRequests ≤ kept.length then
      (some (rlRetryAfter window now kept), kept)
    else
      let appended := kept ++ [now]
      (none, appended.drop (appended.length - maxRequests))

/-- Sortedness (nondecreasing) of a timestamp deque, front = oldest.  This is
the invariant `check` maintains because `Instant::now()` is monotone. -/
def isSortedLe : List ℕ → Bool
  | [] => true
  | [_] => true
  | a :: b :: t => decide (a ≤ b) && isSortedLe (b :: t)

lemma isSortedLe_tail {a : ℕ} {t : List ℕ} (h : isSortedLe (a :: t) = true) :
    isSortedLe t = true := by
  cases t with
  | nil => rfl
  | cons b t' =>
    simp only [isSortedLe, Bool.and_eq_true, decide_eq_true_eq] at h
    exact h.2

lemma isSortedLe_head_le {a : ℕ} {t : List ℕ} (h : isSortedLe (a :: t) = true) :
    ∀ x ∈ t, a ≤ x := by
  induction t generalizing a with
  | nil => intro x hx; cases hx
  | cons b t' ih =>
    intro x hx
    simp only [isSortedLe, Bool.and_eq_true, decide_eq_true_eq] at h
    rcases List.mem_cons.mp hx with rfl | hx'
    · exact h.1
    · exact le_trans h.1 (ih h.2 x hx')

/-- On a sorted deque of past timestamps, the eviction loop keeps exactly the
timestamps that are still inside the window. -/
lemma rlDropOld_length_eq_countP (window now : ℕ) (dq : List ℕ)
    (hs : isSortedLe dq = true) :
    (rlDropOld window now dq).length = dq.countP (fun t => decide (now - t ≤ window)) := by
  induction dq with
  | nil => rfl
  | cons a t ih =>
    by_cases h : window < now - a
    · have : (fun t => decide (window < now - t)) a = true := by
        simp [h]
      simp only [rlDropOld, List.dropWhile_cons, this, if_true]
      rw [List.countP_cons]
      have hpa : (fun t => decide (now - t ≤ window)) a = false := by
        simp [not_le.mpr h]
      simp only [hpa, if_false, Nat.add_zero]
      exact ih (isSortedLe_tail hs)
    · have hax : (fun t => decide (window < now - t)) a = false := by
        simp [h]
      simp only [rlDropOld, List.dropWhile_cons, hax, Bool.false_eq_true, if_false]
      -- every later timestamp is at least `a`, hence also inside the window
      have hall : ∀ x ∈ t, (fun t => decide (now - t ≤ window)) x = true := by
        intro x hx
        have hax' : a ≤ x := isSortedLe_head_le hs x hx
        have : now - x ≤ now - a := Nat.sub_le_sub_left hax' now
        simp [le_trans this (not_lt.mp h)]
      rw [List.countP_cons]
      have hpa : (fun t => decide (now - t ≤ window)) a = true := by
        simp [not_lt.mp h]
      simp only [hpa, if_true]
      rw [List.countP_eq_length.mpr hall]
      simp [List.length_cons, Nat.add_comm]

lemma rlDropOld_sorted (window now : ℕ) (dq : List ℕ)
    (hs : isSortedLe dq = true) : isSortedLe (rlDropOld window now dq) = true := by
  induction dq with
  | nil => rfl
  | cons a t ih =>
    simp only [rlDropOld, List.dropWhile_cons]
    by_cases h : window < now - a
    · have hd : decide (window < now - a) = true := decide_eq_true h
      simp only [hd, if_true]
      exact ih (isSortedLe_tail hs)
    · have hd : decide (window < now - a) = false := decide_eq_false h
      simp only [hd, Bool.false_eq_true, if_false]
      exact hs

lemma rlDropOld_sublist (window now : ℕ) (dq : List ℕ) :
    (rlDropOld window now dq).Sublist dq :=
  List.dropWhile_sublist _

lemma isSortedLe_append_singleton {l : List ℕ} {x : ℕ}
    (hs : isSortedLe l = true) (hb : ∀ t ∈ l, t ≤ x) :
    isSortedLe (l ++ [x]) = true := by
  induction l with
  | nil => rfl
  | cons a t ih =>
    cases t with
    | nil =>
      simp only [List.cons_append, List.nil_append, isSortedLe, Bool.and_eq_true,
        decide_eq_true_eq]
      exact ⟨hb a (List.mem_cons_self a _), trivial⟩
    | cons b t' =>
      simp only [isSortedLe, Bool.and_eq_true, decide_eq_true_eq] at hs
      have := ih hs.2 (fun t ht => hb t (List.mem_cons_of_mem a ht))
      simp only [List.cons_append, isSortedLe, Bool.and_eq_true, decide_eq_true_eq]
      exact ⟨hs.1, by simpa using this⟩

/-- C4.  `VideoExportRateLimiter::check` with `max_requests > 0`, on a sorted
deque of past timestamps (the state every sequence of calls with monotone
clock produces):
1. if at least `max_requests` timestamps are still inside the window, the call
   is denied with retry-after `max 1` of the seconds until the oldest retained
   timestamp leaves the window, and the deque keeps exactly the in-window
   timestamps;
2. if fewer than `max_requests` are inside the window, the call appends `now`
   and is admitted;
3. in particular, a call on a full deque whose oldest entry has fallen out of
   the window is admitted;
4. the resulting deque is again sorted and bounded by `now`, so the
   hypotheses are maintained across every sequence of calls. -/
theorem rlCheck_spec (window maxRequests now : ℕ) (dq : List ℕ)
    (hmax : 0 < maxRequests) (hs : isSortedLe dq = true) (hb : ∀ t ∈ dq, t ≤ now) :
    ((maxRequests ≤ dq.countP fun t => decide (now - t ≤ window)) →
       ∃ oldest, (rlDropOld window now dq).head? = some oldest ∧
         rlCheck window maxRequests dq now =
           (some (max 1 ((window - (now - oldest)) / nanosPerSec)),
            rlDropOld window now dq))
    ∧ ((dq.countP fun t => decide (now - t ≤ window)) < maxRequests →
       rlCheck window maxRequests dq now = (none, rlDropOld window now dq ++ [now]))
    ∧ (∀ oldest rest, dq = oldest :: rest → dq.length ≤ maxRequests →
         window < now - oldest → (rlCheck window maxRequests dq now).1 = none)
    ∧ (isSortedLe (rlCheck window maxRequests dq now).2 = true
       ∧ ∀ t ∈ (rlCheck window maxRequests dq now).2, t ≤ now) := by
  have hne : ¬ maxRequests = 0 := Nat.pos_iff_ne_zero.mp hmax
  have hlen := rlDropOld_length_eq_countP window now dq hs
  have hkept_sorted := rlDropOld_sorted window now dq hs
  have hkept_sub := rlDropOld_sublist window now dq
  have hkept_bound : ∀ t ∈ rlDropOld window now dq, t ≤ now :=
    fun t ht => hb t (hkept_sub.mem ht)
  refine ⟨?_, ?_, ?_, ?_⟩
  · intro hfull
    rw [← hlen] at hfull
    obtain ⟨oldest, rest, hk⟩ : ∃ o r, rlDropOld window now dq = o :: r := by
      cases hE : rlDropOld window now dq with
      | nil => rw [hE] at hfull; simp at hfull; omega
      | cons o r => exact ⟨o, r, rfl⟩
    refine ⟨oldest, by rw [hk]; rfl, ?_⟩
    rw [rlCheck, if_neg hne]
    simp only [if_pos hfull]
    rw [rlRetryAfter, hk]
    rfl
  · intro hroom
    rw [← hlen] at hroom
    rw [rlCheck, if_neg hne, if_neg (not_le.mpr hroom)]
    have hdrop : (rlDropOld window now dq ++ [now]).length - maxRequests = 0 := by
      rw [List.length_append, List.length_singleton]
      omega
    show (none, List.drop ((rlDropOld window now dq ++ [now]).length - maxRequests)
          (rlDropOld window now dq ++ [now])) =
        (none, rlDropOld window now dq ++ [now])
    rw [hdrop, List.drop_zero]
  · intro oldest rest hdq hfit hout
    -- the oldest entry is no longer counted, so strictly fewer than
    -- `max_requests` remain in the window
    have hcp : (dq.countP fun t => decide (now - t ≤ window)) ≤ rest.length := by
      rw [hdq, List.countP_cons]
      have hold : (fun t => decide (now - t ≤ window)) oldest = false := by
        simp [not_le.mpr hout]
      simp only [hold, if_false, Nat.add_zero]
      exact List.countP_le_length _
    have hlen2 : dq.length = rest.length + 1 := by rw [hdq]; rfl
    have hcount : (dq.countP fun t => decide (now - t ≤ window)) < maxRequests := by
      omega
    rw [← hlen] at hcount
    rw [rlCheck, if_neg hne, if_neg (not_le.mpr hcount)]
  · rw [rlCheck, if_neg hne]
    by_cases hfull : maxRequests ≤ (rlDropOld window now dq).length
    · simp only [if_pos hfull]
      exact ⟨hkept_sorted, hkept_bound⟩
    · simp only [if_neg hfull]
      have hdrop : (rlDropOld window now dq ++ [now]).length - maxRequests = 0 := by
        rw [List.length_append, List.length_singleton]
        omega
      show isSortedLe (List.drop ((rlDropOld window now dq ++ [now]).length - maxRequests)
            (rlDropOld window now dq ++ [now])) = true ∧
          ∀ t ∈ List.drop ((rlDropOld window now dq ++ [now]).length - maxRequests)
            (rlDropOld window now dq ++ [now]), t ≤ now
      rw [hdrop, List.drop_zero]
      constructor
      · exact isSortedLe_append_singleton hkept_sorted hkept_bound
      · intro t ht
        rcases List.mem_append.mp ht with h | h
        · exact hkept_bound t h
        · rw [List.mem_singleton.mp h]

/-- Witness for C4: a concrete denied→admitted scenario.  One admitted
timestamp at t = 0 ns, window 1 s, limit 2; at t = 5 s the old timestamp has
left the window, so the call is admitted and recorded. -/
theorem rlCheck_spec_witness :
    rlCheck 1000000000 2 [0] 5000000000 =
      (none, rlDropOld 1000000000 5000000000 [0] ++ [5000000000]) :=
  (rlCheck_spec 1000000000 2 5000000000 [0] (by decide) (by decide)
    (by intro t ht; simp at ht; omega)).2.1 (by decide)

/-- C10.  Constructing the limiter with `max_requests = 0` disables rate
limiting: `check` returns `Ok(())` for every deque state and every call time,
and records nothing (the guard returns before the deque is touched). -/
theorem rlCheck_zero_limit_disables (window : ℕ) (dq : List ℕ) (now : ℕ) :
    rlCheck window 0 dq now = (none, dq) := by
  rw [rlCheck, if_pos rfl]

/-! ## Processing (`src/pipeline/process.rs`)

`compute_metrics` makes one pass over index pairs `(i-1, i)` for
`i ∈ 1..len`, accumulating distance / elevation gain / duration from the pair
and heart-rate / power from `curr = points[i]` only.  The haversine distance
is the abstracted parameter `d`. -/

/-- The running accumulator of `compute_metrics`' loop (the `mut` locals). -/
structure MetricsAcc where
  distance_km : ℚ
  elevation_gain_m : ℚ
  duration_seconds : ℕ
  hr_sum : ℕ
  hr_count : ℕ
  max_hr : ℕ
  power_sum : ℕ
  power_count : ℕ
  max_power : ℕ
deriving DecidableEq, Inhabited, Repr

/-- Initial accumulator (all `mut` locals start at zero). -/
def metricsAccInit : MetricsAcc :=
  ⟨0, 0, 0, 0, 0, 0, 0, 0, 0⟩

/-- One iteration of the `compute_metrics` loop body for the pair
`(prev, curr)`. -/
def metricsStep (d : TrackPoint → TrackPoint → ℚ)
    (prev curr : TrackPoint) (acc : MetricsAcc) : MetricsAcc :=
  let acc1 := { acc with distance_km := acc.distance_km + d prev curr }
  let acc2 :=
    match prev.elevation, curr.elevation with
    | some pe, some ce =>
        if 0 < ce - pe then
          { acc1 with elevation_gain_m := acc1.elevation_gain_m + (ce - pe) }
        else acc1
    | _, _ => acc1
  let acc3 :=
    match prev.time, curr.time with
    | some pt, some ct =>
        { acc2 with duration_seconds := acc2.duration_seconds + (ct - pt).toNat }
    | _, _ => acc2
  let acc4 :=
    match curr.heart_rate with
    | some hr =>
        { acc3 with hr_sum := acc3.hr_sum + hr, hr_count := acc3.hr_count + 1,
                    max_hr := max acc3.max_hr hr }
    | none => acc3
  match curr.power with
  | some pw =>
      { acc4 with power_sum := acc4.power_sum + pw, power_count := acc4.power_count + 1,
                  max_power := max acc4.max_power pw }
  | none => acc4

/-- The loop `for i in 1..points.len()`, walking consecutive pairs. -/
def metricsLoop (d : TrackPoint → TrackPoint → ℚ) :
    TrackPoint → List TrackPoint → MetricsAcc → MetricsAcc
  | _, [], acc => acc
  | prev, curr :: rest, acc => metricsLoop d curr rest (metricsStep d prev curr acc)

/-- Model of `compute_metrics` (`src/pipeline/process.rs` lines 22–87). -/
def computeMetrics (d : TrackPoint → TrackPoint → ℚ)
    (points : List TrackPoint) : Metrics :=
  let acc :=
    match points with
    | [] => metricsAccInit
    | p :: rest => metricsLoop d p rest metricsAccInit
  let avg_speed_kmh : ℚ :=
    if 0 < acc.duration_seconds then
      acc.distance_km / (acc.duration_seconds : ℚ) * 3600
    else 0
  { distance_km := acc.distance_km
    elevation_gain_m := acc.elevation_gain_m
    duration_seconds := acc.duration_seconds
    avg_speed_kmh := avg_speed_kmh
    avg_heart_rate :=
      if 0 < acc.hr_count then some (acc.hr_sum / acc.hr_count) else none
    max_heart_rate := if 0 < acc.max_hr then some acc.max_hr else none
    avg_power :=
      if 0 < acc.power_count then some (acc.power_sum / acc.power_count) else none
    max_power := if 0 < acc.max_power then some acc.max_power else none }

/-- Model of `detect_available_data` (`src/pipeline/process.rs` lines 89–101). -/
def detectAvailableData (points : List TrackPoint) : AvailableData :=
  { has_coordinates := points.any fun p => !(p.lat == 0 && p.lon == 0)
    has_elevation := points.any fun p => p.elevation.isSome
    has_heart_rate := points.any fun p => p.heart_rate.isSome
    has_power := points.any fun p => p.power.isSome }

/-- Model of `MAX_POINTS` (`src/pipeline/process.rs` line 4). -/
def maxPoints : ℕ := 1000

/-- One iteration of the LTTB bucket loop (`src/pipeline/process.rs` lines
123–157), for bucket index `i`.  The state is the anchor index `a` and the
sampled points so far.  Out-of-range indexing cannot occur for the thresholds
the code uses; element access is modelled with `getD`. -/
def lttbStep (data : List TrackPoint) (n : ℕ) (bucketSize : ℚ)
    (st : ℕ × List TrackPoint) (i : ℕ) : ℕ × List TrackPoint :=
  let a := st.1
  let avgRangeStart := qtoNat (((i : ℚ) + 1) * bucketSize) + 1
  let avgRangeEnd := min (qtoNat (((i : ℚ) + 2) * bucketSize) + 1) n
  let avgX : ℚ := ((avgRangeStart + avgRangeEnd : ℕ) : ℚ) / 2
  let avgY : ℚ :=
    (((data.drop avgRangeStart).take (avgRangeEnd - avgRangeStart)).filterMap
        (fun p => p.elevation)).sum / ((avgRangeEnd - avgRangeStart : ℕ) : ℚ)
  let rangeStart := qtoNat ((i : ℚ) * bucketSize) + 1
  let rangeEnd := qtoNat (((i : ℚ) + 1) * bucketSize) + 1
  let pointAX : ℚ := (a : ℚ)
  let pointAY : ℚ := ((data.getD a default).elevation).getD 0
  let best :=
    (List.range' rangeStart (rangeEnd - rangeStart)).foldl
      (fun (b : ℚ × ℕ) s =>
        let area :=
          |(pointAX - avgX) * (((data.getD s default).elevation).getD 0 - pointAY)
            - (pointAX - (s : ℚ)) * (avgY - pointAY)|
        if b.1 < area then (area, s) else b)
      (-1, rangeStart)
  (best.2, st.2 ++ [data.getD best.2 default])

/-- Model of `lttb_downsample` (`src/pipeline/process.rs` lines 111–161).

In the source, `threshold` and `data.len()` are `usize` and
`(threshold - 2)` wraps modulo `2⁶⁴`; every call site uses
`threshold = MAX_POINTS = 1000`, and the theorems below assume
`2 ≤ threshold`, where `ℕ` subtraction agrees with the source. -/
def lttbDownsample (data : List TrackPoint) (threshold : ℕ) : List TrackPoint :=
  if data.length ≤ threshold ∨ threshold = 0 then data
  else
    let n := data.length
    let bucketSize : ℚ := ((n - 2 : ℕ) : ℚ) / ((threshold - 2 : ℕ) : ℚ)
    let st :=
      (List.range (threshold - 2)).foldl (lttbStep data n bucketSize)
        (0, [data.headD default])
    st.2 ++ [data.getD (n - 1) default]

/-- Model of `downsample` (`src/pipeline/process.rs` lines 103–109). -/
def downsample (points : List TrackPoint) : List TrackPoint :=
  if points.length ≤ maxPoints then points
  else lttbDownsample points maxPoints

/-- Model of `process` (`src/pipeline/process.rs` lines 6–20). -/
def process (d : TrackPoint → TrackPoint → ℚ)
    (points : List TrackPoint) : Except ProcessError ProcessedActivity :=
  if points.length < 2 then
    .error (.insufficientPoints points.length)
  else
    .ok { points := downsample points
          metrics := computeMetrics d points
          available_data := detectAvailableData points }

/-- A zero distance function, used to instantiate the abstract haversine
parameter in concrete examples (heart-rate/power results do not depend on
it). -/
def dZero : TrackPoint → TrackPoint → ℚ := fun _ _ => 0

/-- Shorthand for building a `TrackPoint` (cadence and temperature absent). -/
def mkPt (lat lon : ℚ) (elev : Option ℚ) (time : Option ℤ)
    (hr pw : Option ℕ) : TrackPoint :=
  ⟨lat, lon, elev, time, hr, pw, none, none⟩

/-- Each loop iteration adds the pair deltas and the `curr` channel samples
to the accumulator, fieldwise. -/
lemma metricsStep_eq (d : TrackPoint → TrackPoint → ℚ)
    (prev curr : TrackPoint) (acc : MetricsAcc) :
    metricsStep d prev curr acc =
      { distance_km := acc.distance_km + d prev curr
        elevation_gain_m := acc.elevation_gain_m +
          (match prev.elevation, curr.elevation with
           | some pe, some ce => if 0 < ce - pe then ce - pe else 0
           | _, _ => 0)
        duration_seconds := acc.duration_seconds +
          (match prev.time, curr.time with
           | some pt, some ct => (ct - pt).toNat
           | _, _ => 0)
        hr_sum := acc.hr_sum + curr.heart_rate.getD 0
        hr_count := acc.hr_count + (if curr.heart_rate.isSome then 1 else 0)
        max_hr := max acc.max_hr (curr.heart_rate.getD 0)
        power_sum := acc.power_sum + curr.power.getD 0
        power_count := acc.power_count + (if curr.power.isSome then 1 else 0)
        max_power := max acc.max_power (curr.power.getD 0) } := by
  rcases hpe : prev.elevation with _ | pe <;> rcases hce : curr.elevation with _ | ce <;>
    rcases hpt : prev.time with _ | pt <;> rcases hct : curr.time with _ | ct <;>
    rcases hhr : curr.heart_rate with _ | hr <;> rcases hpw : curr.power with _ | pw <;>
    simp [metricsStep, hpe, hce, hpt, hct, hhr, hpw] <;>
    split <;> simp

/-- The loop's effect on the heart-rate and power accumulators: it collects
exactly the samples of the `rest` points, i.e. of every point except the
first of the series. -/
lemma metricsLoop_hr_power (d : TrackPoint → TrackPoint → ℚ) :
    ∀ (rest : List TrackPoint) (prev : TrackPoint) (acc : MetricsAcc),
      (metricsLoop d prev rest acc).hr_sum
          = acc.hr_sum + (rest.filterMap TrackPoint.heart_rate).sum
      ∧ (metricsLoop d prev rest acc).hr_count
          = acc.hr_count + (rest.filterMap TrackPoint.heart_rate).length
      ∧ (metricsLoop d prev rest acc).max_hr
          = (rest.filterMap TrackPoint.heart_rate).foldl max acc.max_hr
      ∧ (metricsLoop d prev rest acc).power_sum
          = acc.power_sum + (rest.filterMap TrackPoint.power).sum
      ∧ (metricsLoop d prev rest acc).power_count
          = acc.power_count + (rest.filterMap TrackPoint.power).length
      ∧ (metricsLoop d prev rest acc).max_power
          = (rest.filterMap TrackPoint.power).foldl max acc.max_power := by
  intro rest
  induction rest with
  | nil => intro prev acc; simp [metricsLoop]
  | cons curr rest' ih =>
    intro prev acc
    obtain ⟨h1, h2, h3, h4, h5, h6⟩ := ih curr (metricsStep d prev curr acc)
    have hunfold : metricsLoop d prev (curr :: rest') acc
        = metricsLoop d curr rest' (metricsStep d prev curr acc) := rfl
    refine ⟨?_, ?_, ?_, ?_, ?_, ?_⟩
    · rw [hunfold, h1, metricsStep_eq]
      rcases hhr : curr.heart_rate with _ | hr <;>
        simp [hhr, List.filterMap_cons, List.sum_cons] <;> omega
    · rw [hunfold, h2, metricsStep_eq]
      rcases hhr : curr.heart_rate with _ | hr <;>
        simp [hhr, List.filterMap_cons] <;> omega
    · rw [hunfold, h3, metricsStep_eq]
      rcases hhr : curr.heart_rate with _ | hr <;>
        simp [hhr, List.filterMap_cons]
    · rw [hunfold, h4, metricsStep_eq]
      rcases hpw : curr.power with _ | pw <;>
        simp [hpw, List.filterMap_cons, List.sum_cons] <;> omega
    · rw [hunfold, h5, metricsStep_eq]
      rcases hpw : curr.power with _ | pw <;>
        simp [hpw, List.filterMap_cons] <;> omega
    · rw [hunfold, h6, metricsStep_eq]
      rcases hpw : curr.power with _ | pw <;>
        simp [hpw, List.filterMap_cons]

/-- C1 (amended).  In `compute_metrics`, the heart-rate and power
accumulators collect the samples of every point except the first
(`curr = points[i]` for `i ∈ 1..len`): for every series with at least two
points, `avg_heart_rate` is the integer average of the heart-rate values of
the points at index ≥ 1 that carry one (`None` when none does), and
`max_heart_rate` is the maximum of those values when that maximum is positive
(`None` otherwise); likewise for `avg_power` and `max_power`. -/
theorem computeMetrics_hr_power (d : TrackPoint → TrackPoint → ℚ)
    (points : List TrackPoint) (h : 2 ≤ points.length) :
    (computeMetrics d points).avg_heart_rate =
      (if 0 < ((points.drop 1).filterMap TrackPoint.heart_rate).length then
        some (((points.drop 1).filterMap TrackPoint.heart_rate).sum /
              ((points.drop 1).filterMap TrackPoint.heart_rate).length)
       else none)
    ∧ (computeMetrics d points).max_heart_rate =
      (if 0 < ((points.drop 1).filterMap TrackPoint.heart_rate).foldl max 0 then
        some (((points.drop 1).filterMap TrackPoint.heart_rate).foldl max 0)
       else none)
    ∧ (computeMetrics d points).avg_power =
      (if 0 < ((points.drop 1).filterMap TrackPoint.power).length then
        some (((points.drop 1).filterMap TrackPoint.power).sum /
              ((points.drop 1).filterMap TrackPoint.power).length)
       else none)
    ∧ (computeMetrics d points).max_power =
      (if 0 < ((points.drop 1).filterMap TrackPoint.power).foldl max 0 then
        some (((points.drop 1).filterMap TrackPoint.power).foldl max 0)
       else none) := by
  cases points with
  | nil => simp at h
  | cons p rest =>
    obtain ⟨h1, h2, h3, h4, h5, h6⟩ := metricsLoop_hr_power d rest p metricsAccInit
    have hi : metricsAccInit.hr_sum = 0 ∧ metricsAccInit.hr_count = 0
        ∧ metricsAccInit.max_hr = 0 ∧ metricsAccInit.power_sum = 0
        ∧ metricsAccInit.power_count = 0 ∧ metricsAccInit.max_power = 0 := by
      refine ⟨rfl, rfl, rfl, rfl, rfl, rfl⟩
    refine ⟨?_, ?_, ?_, ?_⟩ <;>
      simp only [computeMetrics, List.drop_one, List.tail_cons, h1, h2, h3, h4, h5, h6,
        hi.1, hi.2.1, hi.2.2.1, hi.2.2.2.1, hi.2.2.2.2.1, hi.2.2.2.2.2,
        Nat.zero_add]

/-- Witness for C1's amended theorem at a concrete two-point series. -/
theorem computeMetrics_hr_power_witness :
    (computeMetrics dZero
        [mkPt 0 0 none none none none,
         mkPt 0 0 none none (some 150) (some 200)]).avg_heart_rate =
      (if 0 < (([mkPt 0 0 none none none none,
            mkPt 0 0 none none (some 150) (some 200)].drop 1).filterMap
            TrackPoint.heart_rate).length then
        some ((([mkPt 0 0 none none none none,
              mkPt 0 0 none none (some 150) (some 200)].drop 1).filterMap
              TrackPoint.heart_rate).sum /
            (([mkPt 0 0 none none none none,
              mkPt 0 0 none none (some 150) (some 200)].drop 1).filterMap
              TrackPoint.heart_rate).length)
       else none) :=
  (computeMetrics_hr_power dZero
    [mkPt 0 0 none none none none, mkPt 0 0 none none (some 150) (some 200)]
    (by decide)).1

/-- Counterexample to C1 as stated: in the two-point series whose *first*
point carries heart rate 100 and whose second carries none, the integer
average over all points that have one is 100, but `compute_metrics` reports
`avg_heart_rate = None` — the first point's sample is never accumulated. -/
theorem computeMetrics_counterexample :
    ¬ ((computeMetrics dZero
          [mkPt 0 0 none none (some 100) none,
           mkPt 0 0 none none none none]).avg_heart_rate =
        some ((([mkPt 0 0 none none (some 100) none,
              mkPt 0 0 none none none none]).filterMap TrackPoint.heart_rate).sum /
            (([mkPt 0 0 none none (some 100) none,
              mkPt 0 0 none none none none]).filterMap TrackPoint.heart_rate).length)) := by
  have hl : (computeMetrics dZero
      [mkPt 0 0 none none (some 100) none,
       mkPt 0 0 none none none none]).avg_heart_rate = none := by
    obtain ⟨_, h2, _⟩ := metricsLoop_hr_power dZero
      [mkPt 0 0 none none none none] (mkPt 0 0 none none (some 100) none) metricsAccInit
    simp only [computeMetrics, h2]
    norm_num [mkPt, metricsAccInit]
  rw [hl]
  simp [mkPt]

/-- Appending one sampled point per bucket: the length of the accumulated
sample list grows by the number of buckets. -/
lemma lttb_loop_length (data : List TrackPoint) (n : ℕ) (bs : ℚ) :
    ∀ (l : List ℕ) (st : ℕ × List TrackPoint),
      ((l.foldl (lttbStep data n bs) st).2).length = st.2.length + l.length := by
  intro l
  induction l with
  | nil => intro st; simp
  | cons i l' ih =>
    intro st
    rw [List.foldl_cons, ih]
    have : (lttbStep data n bs st i).2 = st.2 ++ [data.getD (lttbStep data n bs st i).1 default] := rfl
    rw [this, List.length_append]
    simp [Nat.add_assoc, Nat.add_comm 1]

/-- The bucket loop only ever appends to the accumulated sample list. -/
lemma lttb_loop_extends (data : List TrackPoint) (n : ℕ) (bs : ℚ) :
    ∀ (l : List ℕ) (st : ℕ × List TrackPoint),
      ∃ t, (l.foldl (lttbStep data n bs) st).2 = st.2 ++ t := by
  intro l
  induction l with
  | nil => intro st; exact ⟨[], by simp⟩
  | cons i l' ih =>
    intro st
    obtain ⟨t, ht⟩ := ih (lttbStep data n bs st i)
    refine ⟨[data.getD (lttbStep data n bs st i).1 default] ++ t, ?_⟩
    rw [List.foldl_cons, ht]
    have : (lttbStep data n bs st i).2 = st.2 ++ [data.getD (lttbStep data n bs st i).1 default] := rfl
    rw [this, List.append_assoc]

/-- Unfolding of `lttbDownsample` on the main (downsampling) path. -/
lemma lttbDownsample_eq (data : List TrackPoint) (threshold : ℕ)
    (h : ¬(data.length ≤ threshold ∨ threshold = 0)) :
    lttbDownsample data threshold =
      (List.foldl
          (lttbStep data data.length
            (((data.length - 2 : ℕ) : ℚ) / ((threshold - 2 : ℕ) : ℚ)))
          (0, [data.headD default]) (List.range (threshold - 2))).2
        ++ [data.getD (data.length - 1) default] := by
  rw [lttbDownsample, if_neg h]

/-- For `2 ≤ threshold < data.len()`, LTTB emits exactly `threshold` points:
the first point, one per interior bucket, and the last point. -/
lemma lttbDownsample_length (data : List TrackPoint) (threshold : ℕ)
    (h2 : 2 ≤ threshold) (hlt : threshold < data.length) :
    (lttbDownsample data threshold).length = threshold := by
  rw [lttbDownsample, if_neg (by push_neg; omega)]
  rw [List.length_append, List.length_singleton,
    lttb_loop_length data data.length _ (List.range (threshold - 2)) (0, [data.headD default])]
  simp only [List.length_singleton, List.length_range]
  omega

/-- C6.  `process` fails with `InsufficientPoints(n)` exactly when the parsed
input has `n < 2` points; on any input with at least 2 points it succeeds,
the output series has between 2 and 1000 points, inputs of at most 1000
points are kept whole, and longer inputs are downsampled to exactly 1000. -/
theorem process_spec (d : TrackPoint → TrackPoint → ℚ) (points : List TrackPoint) :
    (points.length < 2 →
      process d points = .error (.insufficientPoints points.length))
    ∧ (2 ≤ points.length → ∃ pa, process d points = .ok pa
        ∧ 2 ≤ pa.points.length ∧ pa.points.length ≤ 1000
        ∧ (points.length ≤ 1000 → pa.points = points)
        ∧ (1000 < points.length → pa.points.length = 1000)) := by
  constructor
  · intro hlt
    rw [process, if_pos hlt]
  · intro hge
    refine ⟨{ points := downsample points
              metrics := computeMetrics d points
              available_data := detectAvailableData points }, ?_, ?_, ?_, ?_, ?_⟩
    · rw [process, if_neg (by omega)]
    · by_cases hle : points.length ≤ maxPoints
      · rw [downsample, if_pos hle]; exact hge
      · rw [downsample, if_neg hle,
          lttbDownsample_length points maxPoints (by norm_num [maxPoints]) (by omega)]
        norm_num [maxPoints]
    · by_cases hle : points.length ≤ maxPoints
      · rw [downsample, if_pos hle]; exact le_trans hle (by norm_num [maxPoints])
      · rw [downsample, if_neg hle,
          lttbDownsample_length points maxPoints (by norm_num [maxPoints]) (by omega)]
        norm_num [maxPoints]
    · intro hle
      rw [downsample, if_pos (by simpa [maxPoints] using hle)]
    · intro hgt
      rw [downsample, if_neg (by simp only [maxPoints]; omega),
        lttbDownsample_length points maxPoints (by norm_num [maxPoints]) (by simpa [maxPoints] using hgt)]
      rfl

/-- Witness for C6 at a concrete two-point series. -/
theorem process_spec_witness :
    ∃ pa, process dZero [mkPt 0 0 none none none none, mkPt 1 1 none none none none] = .ok pa
      ∧ 2 ≤ pa.points.length ∧ pa.points.length ≤ 1000
      ∧ ([mkPt 0 0 none none none none, mkPt 1 1 none none none none].length ≤ 1000 →
          pa.points = [mkPt 0 0 none none none none, mkPt 1 1 none none none none])
      ∧ (1000 < [mkPt 0 0 none none none none, mkPt 1 1 none none none none].length →
          pa.points.length = 1000) :=
  (process_spec dZero [mkPt 0 0 none none none none, mkPt 1 1 none none none none]).2
    (by decide)

/-- C7.  For every input longer than the threshold (with the threshold at
least 2, as at the only call site, `threshold = 1000`), LTTB preserves the
first and the last input point exactly. -/
theorem lttbDownsample_first_last (data : List TrackPoint) (threshold : ℕ)
    (h2 : 2 ≤ threshold) (hlt : threshold < data.length) :
    (lttbDownsample data threshold).head? = data.head?
    ∧ (lttbDownsample data threshold).getLast? = data.getLast? := by
  have hne : data ≠ [] := by
    intro hE; rw [hE] at hlt; simp at hlt
  rw [lttbDownsample_eq data threshold (by push_neg; omega)]
  constructor
  · obtain ⟨t, ht⟩ := lttb_loop_extends data data.length
      (((data.length - 2 : ℕ) : ℚ) / ((threshold - 2 : ℕ) : ℚ))
      (List.range (threshold - 2)) (0, [data.headD default])
    rw [ht]
    cases data with
    | nil => exact absurd rfl hne
    | cons a rest => simp [List.headD]
  · rw [List.getLast?_concat]
    cases data with
    | nil => exact absurd rfl hne
    | cons a rest =>
      rw [List.getLast?_eq_getElem?]
      have hlt' : (a :: rest).length - 1 < (a :: rest).length := by
        simp
      rw [List.getD_eq_getElem?_getD, List.getElem?_eq_getElem hlt']
      simp

/-- Witness for C7: a three-point series downsampled with threshold 2. -/
theorem lttbDownsample_first_last_witness :
    (lttbDownsample [mkPt 0 0 none none none none, mkPt 1 1 none none none none,
        mkPt 2 2 none none none none] 2).head?
      = [mkPt 0 0 none none none none, mkPt 1 1 none none none none,
        mkPt 2 2 none none none none].head?
    ∧ (lttbDownsample [mkPt 0 0 none none none none, mkPt 1 1 none none none none,
        mkPt 2 2 none none none none] 2).getLast?
      = [mkPt 0 0 none none none none, mkPt 1 1 none none none none,
        mkPt 2 2 none none none none].getLast? :=
  lttbDownsample_first_last _ 2 (by decide) (by decide)

/-! ## Visualization preparation (`src/pipeline/prepare.rs`)

`normalize_route_points` folds min/max of each coordinate starting from
`±∞`; on a nonempty list this equals folding from the first element, which is
how the fold is modelled (`ℚ` has no infinities). -/

/-- Fold of `min` over a list as the source's `fold(f64::INFINITY, f64::min)`
on a nonempty list: the first element seeds the fold. -/
def foldMin : List ℚ → ℚ
  | [] => 0
  | x :: xs => xs.foldl min x

/-- Fold of `max` over a list as the source's
`fold(f64::NEG_INFINITY, f64::max)` on a nonempty list. -/
def foldMax : List ℚ → ℚ
  | [] => 0
  | x :: xs => xs.foldl max x

/-- Model of `normalize_route_points` (`src/pipeline/prepare.rs` lines 97–118). -/
def normalizeRoutePoints (points : List (ℚ × ℚ)) : List (ℚ × ℚ) :=
  match points with
  | [] => []
  | p :: rest =>
    let minX := foldMin ((p :: rest).map Prod.fst)
    let maxX := foldMax ((p :: rest).map Prod.fst)
    let minY := foldMin ((p :: rest).map Prod.snd)
    let maxY := foldMax ((p :: rest).map Prod.snd)
    let rangeX := maxX - minX
    let rangeY := maxY - minY
    if rangeX = 0 ∨ rangeY = 0 then p :: rest
    else (p :: rest).map fun q => ((q.1 - minX) / rangeX, (q.2 - minY) / rangeY)

lemma foldl_min_le_init (xs : List ℚ) (a : ℚ) : xs.foldl min a ≤ a := by
  induction xs generalizing a with
  | nil => exact le_refl a
  | cons x xs ih =>
    rw [List.foldl_cons]
    exact le_trans (ih (min a x)) (min_le_left a x)

lemma foldl_min_le_of_mem (xs : List ℚ) (a x : ℚ) (hx : x ∈ xs) :
    xs.foldl min a ≤ x := by
  induction xs generalizing a with
  | nil => cases hx
  | cons y ys ih =>
    rw [List.foldl_cons]
    rcases List.mem_cons.mp hx with rfl | hx'
    · exact le_trans (foldl_min_le_init ys (min a x)) (min_le_right a x)
    · exact ih (min a y) hx'

lemma le_foldl_max_init (xs : List ℚ) (a : ℚ) : a ≤ xs.foldl max a := by
  induction xs generalizing a with
  | nil => exact le_refl a
  | cons x xs ih =>
    rw [List.foldl_cons]
    exact le_trans (le_max_left a x) (ih (max a x))

lemma le_foldl_max_of_mem (xs : List ℚ) (a x : ℚ) (hx : x ∈ xs) :
    x ≤ xs.foldl max a := by
  induction xs generalizing a with
  | nil => cases hx
  | cons y ys ih =>
    rw [List.foldl_cons]
    rcases List.mem_cons.mp hx with rfl | hx'
    · exact le_trans (le_max_right a x) (le_foldl_max_init ys (max a x))
    · exact ih (max a y) hx'

lemma foldMin_le_of_mem (xs : List ℚ) (x : ℚ) (hx : x ∈ xs) : foldMin xs ≤ x := by
  cases xs with
  | nil => cases hx
  | cons y ys =>
    rcases List.mem_cons.mp hx with rfl | hx'
    · exact foldl_min_le_init ys x
    · exact foldl_min_le_of_mem ys y x hx'

lemma le_foldMax_of_mem (xs : List ℚ) (x : ℚ) (hx : x ∈ xs) : x ≤ foldMax xs := by
  cases xs with
  | nil => cases hx
  | cons y ys =>
    rcases List.mem_cons.mp hx with rfl | hx'
    · exact le_foldl_max_init ys x
    · exact le_foldl_max_of_mem ys y x hx'

/-- C3 (amended).  When *both* projected axes have nonzero range, every
normalized coordinate pair lies in `[0,1]²`.  (When either axis has zero
range the source passes the raw projected coordinates through unchanged.) -/
theorem normalizeRoutePoints_bounds (points : List (ℚ × ℚ)) (p : ℚ × ℚ)
    (rest : List (ℚ × ℚ)) (hpts : points = p :: rest)
    (hx : foldMax (points.map Prod.fst) - foldMin (points.map Prod.fst) ≠ 0)
    (hy : foldMax (points.map Prod.snd) - foldMin (points.map Prod.snd) ≠ 0) :
    ∀ q ∈ normalizeRoutePoints points, 0 ≤ q.1 ∧ q.1 ≤ 1 ∧ 0 ≤ q.2 ∧ q.2 ≤ 1 := by
  subst hpts
  intro q hq
  rw [normalizeRoutePoints, if_neg (by push_neg; exact ⟨hx, hy⟩)] at hq
  obtain ⟨q₀, hq₀, rfl⟩ := List.mem_map.mp hq
  have hq1 : q₀.1 ∈ (p :: rest).map Prod.fst := List.mem_map_of_mem Prod.fst hq₀
  have hq2 : q₀.2 ∈ (p :: rest).map Prod.snd := List.mem_map_of_mem Prod.snd hq₀
  have hminx := foldMin_le_of_mem _ _ hq1
  have hmaxx := le_foldMax_of_mem _ _ hq1
  have hminy := foldMin_le_of_mem _ _ hq2
  have hmaxy := le_foldMax_of_mem _ _ hq2
  have hrx : 0 < foldMax ((p :: rest).map Prod.fst) - foldMin ((p :: rest).map Prod.fst) := by
    rcases lt_or_eq_of_le (sub_nonneg.mpr (le_trans hminx hmaxx)) with h | h
    · exact h
    · exact absurd h.symm hx
  have hry : 0 < foldMax ((p :: rest).map Prod.snd) - foldMin ((p :: rest).map Prod.snd) := by
    rcases lt_or_eq_of_le (sub_nonneg.mpr (le_trans hminy hmaxy)) with h | h
    · exact h
    · exact absurd h.symm hy
  refine ⟨div_nonneg (by linarith) (le_of_lt hrx), ?_, div_nonneg (by linarith) (le_of_lt hry), ?_⟩
  · rw [div_le_one hrx]; linarith
  · rw [div_le_one hry]; linarith

/-- Witness for C3's amended theorem: `[(0,0),(2,4)]` normalizes into
`[0,1]²`; we check the first output pair. -/
theorem normalizeRoutePoints_bounds_witness :
    0 ≤ ((normalizeRoutePoints [((0:ℚ),(0:ℚ)),(2,4)]).headD (0,0)).1
    ∧ ((normalizeRoutePoints [((0:ℚ),(0:ℚ)),(2,4)]).headD (0,0)).1 ≤ 1
    ∧ 0 ≤ ((normalizeRoutePoints [((0:ℚ),(0:ℚ)),(2,4)]).headD (0,0)).2
    ∧ ((normalizeRoutePoints [((0:ℚ),(0:ℚ)),(2,4)]).headD (0,0)).2 ≤ 1 := by
  have hx : foldMax ([((0:ℚ),(0:ℚ)),(2,4)].map Prod.fst)
      - foldMin ([((0:ℚ),(0:ℚ)),(2,4)].map Prod.fst) ≠ 0 := by
    simp [foldMax, foldMin]
  have hy : foldMax ([((0:ℚ),(0:ℚ)),(2,4)].map Prod.snd)
      - foldMin ([((0:ℚ),(0:ℚ)),(2,4)].map Prod.snd) ≠ 0 := by
    simp [foldMax, foldMin]
  have h := normalizeRoutePoints_bounds [((0:ℚ),(0:ℚ)),(2,4)] ((0:ℚ),(0:ℚ)) [(2,4)] rfl hx hy
  have hmem : (normalizeRoutePoints [((0:ℚ),(0:ℚ)),(2,4)]).headD (0,0)
      ∈ normalizeRoutePoints [((0:ℚ),(0:ℚ)),(2,4)] := by
    rw [normalizeRoutePoints, if_neg (by push_neg; exact ⟨hx, hy⟩)]
    simp only [List.map_cons]
    exact List.mem_cons_self _ _
  exact h _ hmem

/-- Counterexample to C3 as stated: for `[(5,3),(7,3)]` the x-axis has
nonzero range but the y-axis collapses, so the source passes the raw
coordinates through — and `(5,3)` is far outside `[0,1]²`. -/
theorem normalizeRoutePoints_counterexample :
    (foldMax ([((5:ℚ),(3:ℚ)),(7,3)].map Prod.fst)
        - foldMin ([((5:ℚ),(3:ℚ)),(7,3)].map Prod.fst) ≠ 0
      ∨ foldMax ([((5:ℚ),(3:ℚ)),(7,3)].map Prod.snd)
        - foldMin ([((5:ℚ),(3:ℚ)),(7,3)].map Prod.snd) ≠ 0)
    ∧ ¬ (∀ q ∈ normalizeRoutePoints [((5:ℚ),(3:ℚ)),(7,3)],
          0 ≤ q.1 ∧ q.1 ≤ 1 ∧ 0 ≤ q.2 ∧ q.2 ≤ 1) := by
  constructor
  · left
    simp only [List.map_cons, List.map_nil, foldMax, foldMin, List.foldl_cons,
      List.foldl_nil]
    norm_num [max_def, min_def]
  · intro h
    have hmem : ((5:ℚ),(3:ℚ)) ∈ normalizeRoutePoints [((5:ℚ),(3:ℚ)),(7,3)] := by
      rw [normalizeRoutePoints, if_pos (by right; simp [foldMax, foldMin])]
      exact List.mem_cons_self _ _
    have := (h _ hmem).2.1
    norm_num at this

/-- Model of `ColorByMetric` (`src/types/viz.rs`). -/
inductive ColorByMetric where
  | elevation
  | speed
  | heartRate
  | power
deriving DecidableEq, Repr

/-- The per-metric raw value pass of `compute_route_metric_values`
(`src/pipeline/prepare.rs` lines 127–180), before the final-index
inheritance and normalization.  `d` abstracts `haversine_distance`. -/
def rawMetricValues (d : TrackPoint → TrackPoint → ℚ)
    (points : List TrackPoint) : ColorByMetric → List (Option ℚ)
  | .elevation =>
      let n := points.length
      -- per-segment grades (SMOOTH_WINDOW = 5, MAX_GRADE = 0.15)
      let rawGrades : List ℚ := (List.range n).map fun i =>
        if i < n - 1 then
          match (points.getD i default).elevation, (points.getD (i+1) default).elevation with
          | some currElev, some nextElev =>
              let distanceKm := d (points.getD i default) (points.getD (i+1) default)
              if f64Epsilon < distanceKm then (nextElev - currElev) / (distanceKm * 1000)
              else 0
          | _, _ => 0
        else 0
      (List.range n).map fun i =>
        let start := i - 5
        let stop := min (i + 5 + 1) n
        let cnt : ℚ := ((stop - start : ℕ) : ℚ)
        let avg := ((rawGrades.drop start).take (stop - start)).sum / cnt
        some (rclamp avg (-(3/20)) (3/20))
  | .speed =>
      (List.range points.length).map fun i =>
        if i < points.length - 1 then
          match (points.getD i default).time, (points.getD (i+1) default).time with
          | some currTime, some nextTime =>
              let deltaSeconds : ℚ := ((nextTime - currTime : ℤ) : ℚ)
              if f64Epsilon < deltaSeconds then
                some (d (points.getD i default) (points.getD (i+1) default)
                      / (deltaSeconds / 3600))
              else none
          | _, _ => none
        else none
  | .heartRate => points.map fun p => p.heart_rate.map fun hr => (hr : ℚ)
  | .power => points.map fun p => p.power.map fun pw => (pw : ℚ)

/-- The final-index inheritance step (`src/pipeline/prepare.rs` lines
182–186): when there are at least two entries and the last is `None`, it is
overwritten with the previous entry's value. -/
def inheritLastValue (values : List (Option ℚ)) : List (Option ℚ) :=
  if 2 ≤ values.length ∧ values.getD (values.length - 1) none = none then
    values.set (values.length - 1) (values.getD (values.length - 2) none)
  else values

/-- Model of `normalize_optional_values` (`src/pipeline/prepare.rs` lines 191–215).
The `±∞` min/max fold over the defined values, with the `is_finite` check,
is modelled by matching on whether any defined value exists and seeding the
fold with the first one. -/
def normalizeOptionalValues (values : List (Option ℚ)) : List (Option ℚ) :=
  match values.filterMap id with
  | [] => values.map fun _ => none
  | v :: rest =>
      let minValue := rest.foldl min v
      let maxValue := rest.foldl max v
      let range := maxValue - minValue
      if range ≤ f64Epsilon then values.map (Option.map fun _ => 1/2)
      else values.map (Option.map fun x => (x - minValue) / range)

/-- Model of `compute_route_metric_values` (`src/pipeline/prepare.rs` lines
120–189): raw values, then final-index inheritance, then min–max
normalization. -/
def computeRouteMetricValues (d : TrackPoint → TrackPoint → ℚ)
    (points : List TrackPoint) (metric : ColorByMetric) : List (Option ℚ) :=
  if points.isEmpty then []
  else normalizeOptionalValues (inheritLastValue (rawMetricValues d points metric))

/-- Unfolding of `normalize_optional_values` when no value is defined. -/
lemma normalizeOptionalValues_eq_nil (values : List (Option ℚ))
    (hfm : values.filterMap id = []) :
    normalizeOptionalValues values = values.map fun _ => none := by
  rw [normalizeOptionalValues, hfm]

/-- Unfolding of `normalize_optional_values` when some value is defined. -/
lemma normalizeOptionalValues_eq_cons (values : List (Option ℚ)) (v : ℚ)
    (rest : List ℚ) (hfm : values.filterMap id = v :: rest) :
    normalizeOptionalValues values =
      if rest.foldl max v - rest.foldl min v ≤ f64Epsilon then
        values.map (Option.map fun _ => 1/2)
      else
        values.map (Option.map fun x =>
          (x - rest.foldl min v) / (rest.foldl max v - rest.foldl min v)) := by
  rw [normalizeOptionalValues, hfm]

/-- The output of `normalize_optional_values` only holds defined values in
`[0,1]`. -/
lemma normalizeOptionalValues_bounds (values : List (Option ℚ)) :
    ∀ o ∈ normalizeOptionalValues values, ∀ x, o = some x → 0 ≤ x ∧ x ≤ 1 := by
  intro o ho x hox
  cases hfm : values.filterMap id with
  | nil =>
    rw [normalizeOptionalValues_eq_nil values hfm] at ho
    obtain ⟨_, _, rfl⟩ := List.mem_map.mp ho
    cases hox
  | cons v rest =>
    rw [normalizeOptionalValues_eq_cons values v rest hfm] at ho
    by_cases hr : rest.foldl max v - rest.foldl min v ≤ f64Epsilon
    · rw [if_pos hr] at ho
      obtain ⟨o₀, _, rfl⟩ := List.mem_map.mp ho
      cases o₀ with
      | none => cases hox
      | some y =>
        obtain rfl : x = 1/2 := by
          simpa using hox.symm
        norm_num
    · rw [if_neg hr] at ho
      obtain ⟨o₀, ho₀, rfl⟩ := List.mem_map.mp ho
      cases o₀ with
      | none => cases hox
      | some y =>
        obtain rfl : x = (y - rest.foldl min v) / (rest.foldl max v - rest.foldl min v) := by
          simpa using hox.symm
        have hy : y ∈ v :: rest := by
          rw [← hfm]
          exact List.mem_filterMap.mpr ⟨some y, ho₀, rfl⟩
        have hylo : rest.foldl min v ≤ y := by
          rcases List.mem_cons.mp hy with rfl | hy'
          · exact foldl_min_le_init rest y
          · exact foldl_min_le_of_mem rest v y hy'
        have hyhi : y ≤ rest.foldl max v := by
          rcases List.mem_cons.mp hy with rfl | hy'
          · exact le_foldl_max_init rest y
          · exact le_foldl_max_of_mem rest v y hy'
        have hrpos : 0 < rest.foldl max v - rest.foldl min v := by
          rcases lt_or_le f64Epsilon (rest.foldl max v - rest.foldl min v) with h | h
          · calc (0:ℚ) < f64Epsilon := by norm_num [f64Epsilon]
              _ < _ := h
          · exact absurd h hr
        constructor
        · exact div_nonneg (by linarith) (le_of_lt hrpos)
        · rw [div_le_one hrpos]; linarith

/-- C8.  For every point series, abstract distance and color-by metric:
1. every defined value produced by `compute_route_metric_values` lies in
   `[0,1]`;
2. when the min–max range of the defined values entering normalization is at
   most `f64::EPSILON`, every defined output value is exactly `1/2`;
3. when the raw value at the final index is `None` and there are at least two
   entries, the final index inherits the previous index's value before
   normalization. -/
theorem computeRouteMetricValues_spec (d : TrackPoint → TrackPoint → ℚ)
    (points : List TrackPoint) (metric : ColorByMetric) :
    (∀ o ∈ computeRouteMetricValues d points metric, ∀ x, o = some x → 0 ≤ x ∧ x ≤ 1)
    ∧ (∀ v rest,
        (inheritLastValue (rawMetricValues d points metric)).filterMap id = v :: rest →
        rest.foldl max v - rest.foldl min v ≤ f64Epsilon →
        ∀ o ∈ computeRouteMetricValues d points metric, ∀ x, o = some x → x = 1/2)
    ∧ (2 ≤ (rawMetricValues d points metric).length →
        (rawMetricValues d points metric).getLast? = some none →
        (inheritLastValue (rawMetricValues d points metric)).getLast?
          = some ((rawMetricValues d points metric).getD
              ((rawMetricValues d points metric).length - 2) none)) := by
  refine ⟨?_, ?_, ?_⟩
  · intro o ho x hox
    rw [computeRouteMetricValues] at ho
    by_cases hemp : points.isEmpty
    · rw [if_pos hemp] at ho; cases ho
    · rw [if_neg hemp] at ho
      exact normalizeOptionalValues_bounds _ o ho x hox
  · intro v rest hfm hr o ho x hox
    rw [computeRouteMetricValues] at ho
    by_cases hemp : points.isEmpty
    · rw [if_pos hemp] at ho; cases ho
    · rw [if_neg hemp] at ho
      rw [normalizeOptionalValues_eq_cons _ v rest hfm, if_pos hr] at ho
      obtain ⟨o₀, _, rfl⟩ := List.mem_map.mp ho
      cases o₀ with
      | none => cases hox
      | some y => simpa using hox.symm
  · intro hlen hlast
    have hne : rawMetricValues d points metric ≠ [] := by
      intro hE; rw [hE] at hlen; simp at hlen
    have hcond : (rawMetricValues d points metric).getD
        ((rawMetricValues d points metric).length - 1) none = none := by
      rw [List.getD_eq_getElem?_getD, ← List.getLast?_eq_getElem?, hlast]
      rfl
    rw [inheritLastValue, if_pos ⟨hlen, hcond⟩]
    rw [List.getLast?_eq_getElem?, List.length_set]
    rw [List.getElem?_set_self (by simp; omega)]

/-- Witness for C8 at a heart-rate series `[100, 100, –]`: the last raw value
is `None` and inherits `100`, the defined range collapses to `0 ≤ ε`, and the
first output value is exactly `1/2`. -/
theorem computeRouteMetricValues_spec_witness :
    (inheritLastValue (rawMetricValues dZero
        [mkPt 0 0 none none (some 100) none, mkPt 0 0 none none (some 100) none,
         mkPt 0 0 none none none none] .heartRate)).getLast?
      = some ((rawMetricValues dZero
        [mkPt 0 0 none none (some 100) none, mkPt 0 0 none none (some 100) none,
         mkPt 0 0 none none none none] .heartRate).getD 1 none)
    ∧ ((computeRouteMetricValues dZero
        [mkPt 0 0 none none (some 100) none, mkPt 0 0 none none (some 100) none,
         mkPt 0 0 none none none none] .heartRate).getD 0 none = some (1/2)) := by
  have hraw : rawMetricValues dZero
      [mkPt 0 0 none none (some 100) none, mkPt 0 0 none none (some 100) none,
       mkPt 0 0 none none none none] .heartRate
      = [some ((100:ℕ):ℚ), some ((100:ℕ):ℚ), none] := by
    simp [rawMetricValues, mkPt]
  have hspec := computeRouteMetricValues_spec dZero
    [mkPt 0 0 none none (some 100) none, mkPt 0 0 none none (some 100) none,
     mkPt 0 0 none none none none] .heartRate
  have hinherit := hspec.2.2 (by rw [hraw]; simp) (by rw [hraw]; rfl)
  constructor
  · exact hinherit
  · have hinh : inheritLastValue (rawMetricValues dZero
        [mkPt 0 0 none none (some 100) none, mkPt 0 0 none none (some 100) none,
         mkPt 0 0 none none none none] .heartRate)
        = [some ((100:ℕ):ℚ), some ((100:ℕ):ℚ), some ((100:ℕ):ℚ)] := by
      rw [hraw, inheritLastValue]
      norm_num
    have hfm : (inheritLastValue (rawMetricValues dZero
        [mkPt 0 0 none none (some 100) none, mkPt 0 0 none none (some 100) none,
         mkPt 0 0 none none none none] .heartRate)).filterMap id
        = ((100:ℕ):ℚ) :: [((100:ℕ):ℚ), ((100:ℕ):ℚ)] := by
      rw [hinh]; rfl
    have hhalf := hspec.2.1 _ _ hfm (by
      simp only [List.foldl_cons, List.foldl_nil, max_self, min_self]
      norm_num [f64Epsilon])
    have hval : (computeRouteMetricValues dZero
        [mkPt 0 0 none none (some 100) none, mkPt 0 0 none none (some 100) none,
         mkPt 0 0 none none none none] .heartRate).getD 0 none
        = some (1/2 : ℚ) := by
      rw [computeRouteMetricValues, if_neg (by simp), hinh,
        normalizeOptionalValues_eq_cons _ ((100:ℕ):ℚ) [((100:ℕ):ℚ), ((100:ℕ):ℚ)] (by rfl),
        if_pos (by
          simp only [List.foldl_cons, List.foldl_nil, max_self, min_self]
          norm_num [f64Epsilon])]
      rfl
    exact hval

/-! ## Route telemetry (`src/pipeline/prepare.rs`, `compute_route_telemetry`)

One forward pass accumulates, per index, the cumulative raw distance /
elevation gain / elapsed time (over consecutive pairs, for `idx > 0`) and the
running heart-rate / power statistics (over every point, including index 0);
the prefix value at each index is recorded.  A second pass turns the prefixes
into progress fractions and samples. -/

/-- Model of `RouteTelemetrySample` (`src/pipeline/prepare.rs` lines 228–240). -/
structure RouteTelemetrySample where
  route_progress : ℚ
  cumulative_distance_km : ℚ
  cumulative_elevation_gain_m : ℚ
  elapsed_seconds : Option ℚ
  heart_rate : Option ℚ
  power : Option ℚ
  cumulative_avg_heart_rate : Option ℚ
  cumulative_max_heart_rate : Option ℚ
  cumulative_avg_power : Option ℚ
  cumulative_max_power : Option ℚ
deriving DecidableEq, Inhabited, Repr

/-- The running accumulator of the first pass (the `mut` locals of
`compute_route_telemetry`). -/
structure RawAcc where
  dist : ℚ
  gain : ℚ
  elapsed : ℚ
  hrSum : ℕ
  hrCount : ℕ
  maxHr : ℕ
  powerSum : ℕ
  powerCount : ℕ
  maxPower : ℕ
deriving DecidableEq, Inhabited, Repr

/-- All accumulators start at zero. -/
def rawAccInit : RawAcc := ⟨0, 0, 0, 0, 0, 0, 0, 0, 0⟩

/-- The `idx > 0` part of the loop body: pairwise distance, positive
elevation delta, and clock delta (`num_seconds().max(0) as f64`). -/
def rawPairStep (d : TrackPoint → TrackPoint → ℚ)
    (prev curr : TrackPoint) (acc : RawAcc) : RawAcc :=
  let acc1 := { acc with dist := acc.dist + d prev curr }
  let acc2 :=
    match prev.elevation, curr.elevation with
    | some pe, some ce =>
        if 0 < ce - pe then { acc1 with gain := acc1.gain + (ce - pe) } else acc1
    | _, _ => acc1
  match prev.time, curr.time with
  | some pt, some ct =>
      { acc2 with elapsed := acc2.elapsed + (((ct - pt).toNat : ℕ) : ℚ) }
  | _, _ => acc2

/-- The per-point part of the loop body: heart-rate and power samples of the
current point (executed for every index, including 0). -/
def rawChannelStep (p : TrackPoint) (acc : RawAcc) : RawAcc :=
  let acc1 :=
    match p.heart_rate with
    | some hr =>
        { acc with hrSum := acc.hrSum + hr, hrCount := acc.hrCount + 1,
                   maxHr := max acc.maxHr hr }
    | none => acc
  match p.power with
  | some pw =>
      { acc1 with powerSum := acc1.powerSum + pw, powerCount := acc1.powerCount + 1,
                  maxPower := max acc1.maxPower pw }
  | none => acc1

/-- The recorded prefix accumulators for the points after the first:
`rawScan d prev acc rest` records, for each point of `rest`, the accumulator
after its loop iteration. -/
def rawScan (d : TrackPoint → TrackPoint → ℚ) :
    TrackPoint → RawAcc → List TrackPoint → List RawAcc
  | _, _, [] => []
  | prev, acc, curr :: rest =>
      let newAcc := rawChannelStep curr (rawPairStep d prev curr acc)
      newAcc :: rawScan d curr newAcc rest

/-- The `raw_*` prefix vectors of `compute_route_telemetry`
(lines 267–306), combined into one vector of accumulator records (the
source pushes each scalar into its own `Vec` at the same loop position). -/
def rawAccs (d : TrackPoint → TrackPoint → ℚ)
    (points : List TrackPoint) : List RawAcc :=
  match points with
  | [] => []
  | p :: rest =>
      let acc0 := rawChannelStep p rawAccInit
      acc0 :: rawScan d p acc0 rest

/-- Model of `raw_distance.last().copied().unwrap_or(0.0)` — the total raw distance of
the series. -/
def totalRawDistance (d : TrackPoint → TrackPoint → ℚ)
    (points : List TrackPoint) : ℚ :=
  ((rawAccs d points).getLast?.map RawAcc.dist).getD 0

/-- The per-index body of the second pass of `compute_route_telemetry`
(`src/pipeline/prepare.rs` lines 313–375): progress fractions and sample
fields at index `idx`, given the recorded prefixes `raws` and the totals. -/
def telemetrySampleAt (points : List TrackPoint) (metrics : Metrics)
    (raws : List RawAcc) (totalDist totalGain totalElapsed : ℚ)
    (idx : ℕ) : RouteTelemetrySample :=
  let n := points.length
  let r := raws.getD idx rawAccInit
  let p := points.getD idx default
  let fallbackProgress : ℚ :=
    if n ≤ 1 then 1 else (idx : ℚ) / ((n - 1 : ℕ) : ℚ)
  let routeProgress :=
    if f64Epsilon < totalDist then rclamp (r.dist / totalDist) 0 1
    else fallbackProgress
  let gainProgress :=
    if f64Epsilon < totalGain then rclamp (r.gain / totalGain) 0 1
    else routeProgress
  { route_progress := routeProgress
    cumulative_distance_km := routeProgress * metrics.distance_km
    cumulative_elevation_gain_m := gainProgress * metrics.elevation_gain_m
    elapsed_seconds :=
      if 0 < metrics.duration_seconds then
        some ((if f64Epsilon < totalElapsed then
                rclamp (r.elapsed / totalElapsed) 0 1
              else routeProgress) * (metrics.duration_seconds : ℚ))
      else none
    heart_rate := p.heart_rate.map fun v => (v : ℚ)
    power := p.power.map fun v => (v : ℚ)
    cumulative_avg_heart_rate :=
      if 0 < r.hrCount then some ((r.hrSum : ℚ) / (r.hrCount : ℚ)) else none
    cumulative_max_heart_rate :=
      if 0 < r.maxHr then some ((r.maxHr : ℕ) : ℚ) else none
    cumulative_avg_power :=
      if 0 < r.powerCount then some ((r.powerSum : ℚ) / (r.powerCount : ℚ)) else none
    cumulative_max_power :=
      if 0 < r.maxPower then some ((r.maxPower : ℕ) : ℚ) else none }

/-- Model of `compute_route_telemetry` (`src/pipeline/prepare.rs` lines 242–376). -/
def computeRouteTelemetry (d : TrackPoint → TrackPoint → ℚ)
    (points : List TrackPoint) (metrics : Metrics) : List RouteTelemetrySample :=
  if points.isEmpty then []
  else
    let raws := rawAccs d points
    (List.range points.length).map
      (telemetrySampleAt points metrics raws
        ((raws.getLast?.map RawAcc.dist).getD 0)
        ((raws.getLast?.map RawAcc.gain).getD 0)
        ((raws.getLast?.map RawAcc.elapsed).getD 0))

lemma rawChannelStep_dist (p : TrackPoint) (acc : RawAcc) :
    (rawChannelStep p acc).dist = acc.dist := by
  rcases hhr : p.heart_rate with _ | hr <;> rcases hpw : p.power with _ | pw <;>
    simp [rawChannelStep, hhr, hpw]

lemma rawPairStep_dist (d : TrackPoint → TrackPoint → ℚ)
    (prev curr : TrackPoint) (acc : RawAcc) :
    (rawPairStep d prev curr acc).dist = acc.dist + d prev curr := by
  rcases hpe : prev.elevation with _ | pe <;> rcases hce : curr.elevation with _ | ce <;>
    rcases hpt : prev.time with _ | pt <;> rcases hct : curr.time with _ | ct <;>
    simp [rawPairStep, hpe, hce, hpt, hct] <;> split <;> simp

/-- The distances recorded by the scan form a chain that never decreases
(each step adds a nonnegative pairwise distance). -/
lemma rawScan_dist_chain (d : TrackPoint → TrackPoint → ℚ)
    (hd : ∀ a b, 0 ≤ d a b) :
    ∀ (rest : List TrackPoint) (prev : TrackPoint) (acc : RawAcc),
      List.Chain' (fun a b : RawAcc => a.dist ≤ b.dist) (acc :: rawScan d prev acc rest) := by
  intro rest
  induction rest with
  | nil => intro prev acc; exact List.chain'_singleton _
  | cons curr rest' ih =>
    intro prev acc
    have hstep : acc.dist ≤ (rawChannelStep curr (rawPairStep d prev curr acc)).dist := by
      rw [rawChannelStep_dist, rawPairStep_dist]
      have := hd prev curr
      linarith
    have htail := ih curr (rawChannelStep curr (rawPairStep d prev curr acc))
    exact List.chain'_cons.mpr ⟨hstep, htail⟩

lemma rawAccs_dist_chain (d : TrackPoint → TrackPoint → ℚ)
    (hd : ∀ a b, 0 ≤ d a b) (points : List TrackPoint) :
    List.Chain' (fun a b : RawAcc => a.dist ≤ b.dist) (rawAccs d points) := by
  cases points with
  | nil => simp [rawAccs]
  | cons p rest => exact rawScan_dist_chain d hd rest p (rawChannelStep p rawAccInit)

lemma rawScan_length (d : TrackPoint → TrackPoint → ℚ) :
    ∀ (rest : List TrackPoint) (prev : TrackPoint) (acc : RawAcc),
      (rawScan d prev acc rest).length = rest.length := by
  intro rest
  induction rest with
  | nil => intro prev acc; rfl
  | cons curr rest' ih =>
    intro prev acc
    simp only [rawScan, List.length_cons, ih]

lemma rawAccs_length (d : TrackPoint → TrackPoint → ℚ) (points : List TrackPoint) :
    (rawAccs d points).length = points.length := by
  cases points with
  | nil => rfl
  | cons p rest =>
    simp only [rawAccs, List.length_cons, rawScan_length]

/-- Along a `≤`-chain, `getD` is monotone in the index. -/
lemma chain'_getD_mono (f : RawAcc → ℚ) (l : List RawAcc)
    (h : List.Chain' (fun a b => f a ≤ f b) l) :
    ∀ i j, i ≤ j → j < l.length → f (l.getD i rawAccInit) ≤ f (l.getD j rawAccInit) := by
  intro i j hij hj
  induction j with
  | zero =>
    obtain rfl : i = 0 := Nat.le_zero.mp hij
    exact le_refl _
  | succ j' ih =>
    rcases Nat.lt_or_ge i (j' + 1) with hlt | hge
    · have hstep : f (l.getD j' rawAccInit) ≤ f (l.getD (j' + 1) rawAccInit) := by
        have hj' : j' < l.length - 1 := by omega
        have := List.chain'_iff_get.mp h j' hj'
        rw [List.getD_eq_getElem?_getD, List.getD_eq_getElem?_getD]
        rw [List.getElem?_eq_getElem (by omega), List.getElem?_eq_getElem (by omega)]
        simpa [List.get_eq_getElem] using this
      exact le_trans (ih (by omega) (by omega)) hstep
    · obtain rfl : i = j' + 1 := by omega
      exact le_refl _

lemma rawAccs_head_dist (d : TrackPoint → TrackPoint → ℚ) (p : TrackPoint)
    (rest : List TrackPoint) :
    ((rawAccs d (p :: rest)).getD 0 rawAccInit).dist = 0 := by
  simp only [rawAccs, List.getD_eq_getElem?_getD, List.getElem?_cons_zero]
  rw [Option.getD_some, rawChannelStep_dist]
  rfl

lemma totalRawDistance_eq_getD_last (d : TrackPoint → TrackPoint → ℚ)
    (points : List TrackPoint) (hne : points ≠ []) :
    totalRawDistance d points
      = ((rawAccs d points).getD ((rawAccs d points).length - 1) rawAccInit).dist := by
  have hlen : (rawAccs d points).length = points.length := rawAccs_length d points
  have hne' : rawAccs d points ≠ [] := by
    intro hE
    apply hne
    have := congrArg List.length hE
    rw [hlen] at this
    exact List.length_eq_zero.mp (by simpa using this)
  rw [totalRawDistance, List.getLast?_eq_getElem?, List.getD_eq_getElem?_getD]
  rw [List.getElem?_eq_getElem (by
    have : 0 < (rawAccs d points).length := List.length_pos.mpr hne'
    omega)]
  rfl

lemma rclamp_mono {x y lo hi : ℚ} (h : x ≤ y) : rclamp x lo hi ≤ rclamp y lo hi :=
  max_le_max (le_refl lo) (min_le_min h (le_refl hi))

lemma rclamp_mem_unit (x : ℚ) : 0 ≤ rclamp x 0 1 ∧ rclamp x 0 1 ≤ 1 :=
  ⟨le_max_left 0 _, max_le zero_le_one (min_le_right x 1)⟩

/-- The `route_progress` field of the per-index sample. -/
lemma telemetrySampleAt_route_progress (points : List TrackPoint)
    (metrics : Metrics) (raws : List RawAcc) (tD tG tE : ℚ) (idx : ℕ) :
    (telemetrySampleAt points metrics raws tD tG tE idx).route_progress =
      if f64Epsilon < tD then
        rclamp ((raws.getD idx rawAccInit).dist / tD) 0 1
      else if points.length ≤ 1 then 1
      else (idx : ℚ) / ((points.length - 1 : ℕ) : ℚ) := rfl

/-- Indexing the telemetry output at a valid index. -/
lemma computeRouteTelemetry_getD (d : TrackPoint → TrackPoint → ℚ)
    (points : List TrackPoint) (metrics : Metrics) (i : ℕ)
    (hi : i < points.length) :
    (computeRouteTelemetry d points metrics).getD i default =
      telemetrySampleAt points metrics (rawAccs d points)
        (totalRawDistance d points)
        (((rawAccs d points).getLast?.map RawAcc.gain).getD 0)
        (((rawAccs d points).getLast?.map RawAcc.elapsed).getD 0) i := by
  have hne : ¬ points.isEmpty = true := by
    cases points with
    | nil => simp at hi
    | cons p rest => simp
  rw [computeRouteTelemetry]
  simp only [if_neg hne]
  rw [List.getD_eq_getElem?_getD, List.getElem?_map, List.getElem?_range hi]
  rfl

lemma computeRouteTelemetry_length (d : TrackPoint → TrackPoint → ℚ)
    (points : List TrackPoint) (metrics : Metrics) (hne : points ≠ []) :
    (computeRouteTelemetry d points metrics).length = points.length := by
  have hne' : ¬ points.isEmpty = true := by
    cases points with
    | nil => exact absurd rfl hne
    | cons p rest => simp
  rw [computeRouteTelemetry]
  simp only [if_neg hne']
  rw [List.length_map, List.length_range]

/-- A one-point series has total raw distance 0 (no pairs are walked). -/
lemma totalRawDistance_singleton (d : TrackPoint → TrackPoint → ℚ)
    (p : TrackPoint) : totalRawDistance d [p] = 0 := by
  rw [totalRawDistance]
  show ((rawAccs d [p]).getLast?.map RawAcc.dist).getD 0 = 0
  have : rawAccs d [p] = [rawChannelStep p rawAccInit] := rfl
  rw [this, List.getLast?_singleton, Option.map_some', Option.getD_some,
    rawChannelStep_dist]
  rfl

/-- C5.  The `route_progress` values of `compute_route_telemetry` (copied
verbatim into the `VizData` points by `prepare`) are monotonically
non-decreasing in index and lie in `[0,1]`; and whenever the total raw
distance over the series is positive, the first sample's progress is 0 and
the last sample's progress is 1. -/
theorem computeRouteTelemetry_route_progress (d : TrackPoint → TrackPoint → ℚ)
    (points : List TrackPoint) (metrics : Metrics)
    (hd : ∀ a b, 0 ≤ d a b) :
    (∀ i j, i ≤ j → j < (computeRouteTelemetry d points metrics).length →
      ((computeRouteTelemetry d points metrics).getD i default).route_progress
        ≤ ((computeRouteTelemetry d points metrics).getD j default).route_progress)
    ∧ (∀ s ∈ computeRouteTelemetry d points metrics,
        0 ≤ s.route_progress ∧ s.route_progress ≤ 1)
    ∧ (0 < totalRawDistance d points →
        ((computeRouteTelemetry d points metrics).head?.map
            RouteTelemetrySample.route_progress) = some 0
        ∧ ((computeRouteTelemetry d points metrics).getLast?.map
            RouteTelemetrySample.route_progress) = some 1) := by
  cases hpts : points with
  | nil =>
    refine ⟨?_, ?_, ?_⟩
    · intro i j _ hj
      simp [computeRouteTelemetry] at hj
    · intro s hs
      simp [computeRouteTelemetry] at hs
    · intro htot
      rw [totalRawDistance] at htot
      simp [rawAccs] at htot
  | cons p rest =>
    rw [← hpts]
    have hne : points ≠ [] := by rw [hpts]; exact List.cons_ne_nil p rest
    have hn1 : 1 ≤ points.length := by rw [hpts]; simp
    have hlen := computeRouteTelemetry_length d points metrics hne
    have hraws_len := rawAccs_length d points
    have hchain := rawAccs_dist_chain d hd points
    have hmono := chain'_getD_mono RawAcc.dist (rawAccs d points) hchain
    have hd0 : ((rawAccs d points).getD 0 rawAccInit).dist = 0 := by
      rw [hpts]; exact rawAccs_head_dist d p rest
    have hdist_nonneg : ∀ i, i < points.length →
        0 ≤ ((rawAccs d points).getD i rawAccInit).dist := by
      intro i hi
      calc (0:ℚ) = ((rawAccs d points).getD 0 rawAccInit).dist := hd0.symm
        _ ≤ _ := hmono 0 i (Nat.zero_le i) (by omega)
    have hdist_le_total : ∀ i, i < points.length →
        ((rawAccs d points).getD i rawAccInit).dist ≤ totalRawDistance d points := by
      intro i hi
      rw [totalRawDistance_eq_getD_last d points hne]
      exact hmono i ((rawAccs d points).length - 1) (by omega) (by omega)
    -- the per-index progress value, named for reuse
    have hprog : ∀ i, i < points.length →
        ((computeRouteTelemetry d points metrics).getD i default).route_progress =
          if f64Epsilon < totalRawDistance d points then
            rclamp (((rawAccs d points).getD i rawAccInit).dist /
              totalRawDistance d points) 0 1
          else if points.length ≤ 1 then 1
          else (i : ℚ) / ((points.length - 1 : ℕ) : ℚ) := by
      intro i hi
      rw [computeRouteTelemetry_getD d points metrics i hi,
        telemetrySampleAt_route_progress]
    refine ⟨?_, ?_, ?_⟩
    · -- monotone in index
      intro i j hij hj
      rw [hlen] at hj
      rw [hprog i (by omega), hprog j hj]
      by_cases hD : f64Epsilon < totalRawDistance d points
      · rw [if_pos hD, if_pos hD]
        have hDpos : 0 < totalRawDistance d points := by
          calc (0:ℚ) < f64Epsilon := by norm_num [f64Epsilon]
            _ < _ := hD
        exact rclamp_mono ((div_le_div_iff_of_pos_right hDpos).mpr
          (hmono i j hij (by omega)))
      · rw [if_neg hD, if_neg hD]
        by_cases h1 : points.length ≤ 1
        · rw [if_pos h1, if_pos h1]
        · rw [if_neg h1, if_neg h1]
          have hpos : (0:ℚ) < ((points.length - 1 : ℕ) : ℚ) := by
            have : 2 ≤ points.length := by omega
            have : 1 ≤ points.length - 1 := by omega
            exact_mod_cast Nat.lt_of_lt_of_le Nat.zero_lt_one this
          exact (div_le_div_iff_of_pos_right hpos).mpr (by exact_mod_cast hij)
    · -- bounded in [0,1]
      intro s hs
      rw [computeRouteTelemetry] at hs
      have hne' : ¬ points.isEmpty = true := by rw [hpts]; simp
      rw [if_neg hne'] at hs
      obtain ⟨i, hi, rfl⟩ := List.mem_map.mp hs
      have hi' : i < points.length := List.mem_range.mp hi
      rw [telemetrySampleAt_route_progress]
      by_cases hD : f64Epsilon < ((rawAccs d points).getLast?.map RawAcc.dist).getD 0
      · rw [if_pos hD]
        exact rclamp_mem_unit _
      · rw [if_neg hD]
        by_cases h1 : points.length ≤ 1
        · rw [if_pos h1]; norm_num
        · rw [if_neg h1]
          have hpos : (0:ℚ) < ((points.length - 1 : ℕ) : ℚ) := by
            have : 1 ≤ points.length - 1 := by omega
            exact_mod_cast Nat.lt_of_lt_of_le Nat.zero_lt_one this
          constructor
          · exact div_nonneg (by positivity) (le_of_lt hpos)
          · rw [div_le_one hpos]
            exact_mod_cast Nat.le_of_lt_succ (by omega)
    · -- endpoints under positive total distance
      intro htot
      have hn2 : 2 ≤ points.length := by
        by_contra hcon
        have h1 : points.length = 1 := by omega
        obtain ⟨q, hq⟩ : ∃ q, points = [q] := by
          cases points with
          | nil => simp at h1
          | cons a t =>
            cases t with
            | nil => exact ⟨a, rfl⟩
            | cons b t' => simp at h1
        rw [hq, totalRawDistance_singleton] at htot
        exact lt_irrefl 0 htot
      have hfirst : ((computeRouteTelemetry d points metrics).getD 0
          default).route_progress = 0 := by
        rw [hprog 0 (by omega)]
        by_cases hD : f64Epsilon < totalRawDistance d points
        · rw [if_pos hD, hd0, zero_div, rclamp]
          rw [min_eq_left zero_le_one, max_self]
        · rw [if_neg hD, if_neg (by omega)]
          simp
      have hlast : ((computeRouteTelemetry d points metrics).getD
          (points.length - 1) default).route_progress = 1 := by
        rw [hprog (points.length - 1) (by omega)]
        have hend : ((rawAccs d points).getD (points.length - 1) rawAccInit).dist
            = totalRawDistance d points := by
          rw [totalRawDistance_eq_getD_last d points hne, hraws_len]
        by_cases hD : f64Epsilon < totalRawDistance d points
        · rw [if_pos hD, hend, div_self (ne_of_gt htot), rclamp]
          rw [min_self, max_eq_right zero_le_one]
        · rw [if_neg hD, if_neg (by omega)]
          rw [div_self]
          have : 1 ≤ points.length - 1 := by omega
          exact_mod_cast Nat.pos_iff_ne_zero.mp (Nat.lt_of_lt_of_le Nat.zero_lt_one this)
      constructor
      · rw [List.head?_eq_getElem?,
          List.getElem?_eq_getElem (by rw [hlen]; omega), Option.map_some']
        have := hfirst
        rw [List.getD_eq_getElem?_getD,
          List.getElem?_eq_getElem (by rw [hlen]; omega)] at this
        simp only [Option.getD_some] at this
        rw [Option.some.injEq]
        exact this
      · rw [List.getLast?_eq_getElem?, hlen,
          List.getElem?_eq_getElem (by rw [hlen]; omega), Option.map_some']
        have := hlast
        rw [List.getD_eq_getElem?_getD,
          List.getElem?_eq_getElem (by rw [hlen]; omega)] at this
        simp only [Option.getD_some] at this
        rw [Option.some.injEq]
        exact this

/-- A unit distance function: every pair of points is 1 km apart.  Used to
instantiate the abstract haversine parameter in concrete examples. -/
def dOne : TrackPoint → TrackPoint → ℚ := fun _ _ => 1

/-- Witness for C5 on a concrete two-point series with unit distances: total
raw distance 1 > 0, so progress starts at 0 and ends at 1. -/
theorem computeRouteTelemetry_route_progress_witness :
    ((computeRouteTelemetry dOne
        [mkPt 0 0 none none none none, mkPt 1 1 none none none none]
        default).head?.map RouteTelemetrySample.route_progress) = some 0
    ∧ ((computeRouteTelemetry dOne
        [mkPt 0 0 none none none none, mkPt 1 1 none none none none]
        default).getLast?.map RouteTelemetrySample.route_progress) = some 1 :=
  (computeRouteTelemetry_route_progress dOne
    [mkPt 0 0 none none none none, mkPt 1 1 none none none none] default
    (fun _ _ => by norm_num [dOne])).2.2
    (by norm_num [totalRawDistance, rawAccs, rawScan, rawChannelStep,
      rawPairStep, rawAccInit, dOne, mkPt])

/-! ## MP4 dimension validation and cap (`src/routes/visualize.rs`)

`cap_mp4_dimensions_to_720p` computes `scale = sqrt(MAX_PIXELS/pixels)` and
rounds `width * scale` and `height * scale`.  Over the reals
`width * sqrt(M/(w*h)) = sqrt(width² * M/(w*h))`, so the rounded scaled
dimension is modelled exactly as the nearest natural number to the square
root of the rational `width² * M/(w*h)`, computed via `Nat.sqrt` of
`⌊4q⌋` (for a real `x ≥ 0`, `⌊2x⌋ = Nat.sqrt ⌊4q⌋` when `x = √q`, and
`round x = (⌊2x⌋ + 1) / 2`). -/

/-- Nearest natural number to `√q` (round half away from zero), for `q ≥ 0`:
the exact value of `(x * scale).round()` when `x * scale = √q`. -/
def sqrtRound (q : ℚ) : ℕ := (Nat.sqrt (qtoNat (4 * q)) + 1) / 2

lemma qtoNat_le (q : ℚ) (hq : 0 ≤ q) : ((qtoNat q : ℕ) : ℚ) ≤ q := by
  have h0 : (0:ℤ) ≤ ⌊q⌋ := Int.floor_nonneg.mpr hq
  have h1 : ((⌊q⌋.toNat : ℕ) : ℚ) = ((⌊q⌋ : ℤ) : ℚ) := by
    rw [← Int.toNat_of_nonneg h0]
    push_cast
    rfl
  rw [qtoNat, h1]
  exact Int.floor_le q

lemma lt_qtoNat_add_one (q : ℚ) (hq : 0 ≤ q) : q < ((qtoNat q : ℕ) : ℚ) + 1 := by
  have h0 : (0:ℤ) ≤ ⌊q⌋ := Int.floor_nonneg.mpr hq
  have h1 : ((⌊q⌋.toNat : ℕ) : ℚ) = ((⌊q⌋ : ℤ) : ℚ) := by
    rw [← Int.toNat_of_nonneg h0]
    push_cast
    rfl
  rw [qtoNat, h1]
  exact Int.lt_floor_add_one q

/-- The value `sqrtRound q` is at most half a unit above `√q`:
`4q < (2·sqrtRound q + 1)²`. -/
lemma sqrtRound_upper (q : ℚ) (hq : 0 ≤ q) :
    4 * q < (2 * (sqrtRound q : ℚ) + 1)^2 := by
  have h4 : (0:ℚ) ≤ 4 * q := by linarith
  have hfl := lt_qtoNat_add_one (4 * q) h4
  have hsq := Nat.lt_succ_sqrt (qtoNat (4 * q))
  have hm : Nat.sqrt (qtoNat (4 * q)) ≤ 2 * sqrtRound q := by
    rw [sqrtRound]
    omega
  calc 4 * q < ((qtoNat (4 * q) : ℕ) : ℚ) + 1 := hfl
    _ ≤ (((Nat.sqrt (qtoNat (4 * q)) + 1) * (Nat.sqrt (qtoNat (4 * q)) + 1) : ℕ) : ℚ) := by
        exact_mod_cast hsq
    _ ≤ (2 * (sqrtRound q : ℚ) + 1)^2 := by
        have hle : (Nat.sqrt (qtoNat (4 * q)) + 1) * (Nat.sqrt (qtoNat (4 * q)) + 1)
            ≤ (2 * sqrtRound q + 1) * (2 * sqrtRound q + 1) :=
          Nat.mul_le_mul (by omega) (by omega)
        calc (((Nat.sqrt (qtoNat (4 * q)) + 1) * (Nat.sqrt (qtoNat (4 * q)) + 1) : ℕ) : ℚ)
            ≤ (((2 * sqrtRound q + 1) * (2 * sqrtRound q + 1) : ℕ) : ℚ) := by
              exact_mod_cast hle
          _ = (2 * (sqrtRound q : ℚ) + 1)^2 := by push_cast; ring

/-- The value `sqrtRound q` is at most half a unit below `√q` when it is positive:
`(2·sqrtRound q − 1)² ≤ 4q`. -/
lemma sqrtRound_lower (q : ℚ) (hq : 0 ≤ q) (h1 : 1 ≤ sqrtRound q) :
    (2 * (sqrtRound q : ℚ) - 1)^2 ≤ 4 * q := by
  have h4 : (0:ℚ) ≤ 4 * q := by linarith
  have hfl := qtoNat_le (4 * q) h4
  have hsq := Nat.sqrt_le' (qtoNat (4 * q))
  have hm : 2 * sqrtRound q - 1 ≤ Nat.sqrt (qtoNat (4 * q)) := by
    rw [sqrtRound]
    omega
  have hcast : (2 * (sqrtRound q : ℚ) - 1) = (((2 * sqrtRound q - 1 : ℕ) : ℕ) : ℚ) := by
    have : 1 ≤ 2 * sqrtRound q := by omega
    push_cast [Nat.cast_sub this]
    ring
  rw [hcast]
  calc (((2 * sqrtRound q - 1 : ℕ) : ℕ) : ℚ)^2
      ≤ ((Nat.sqrt (qtoNat (4 * q)) : ℕ) : ℚ)^2 := by
        have := pow_le_pow_left (by positivity)
          (show (((2 * sqrtRound q - 1 : ℕ) : ℕ) : ℚ) ≤ (Nat.sqrt (qtoNat (4 * q)) : ℚ) by
            exact_mod_cast hm) 2
        exact this
    _ ≤ ((qtoNat (4 * q) : ℕ) : ℚ) := by exact_mod_cast hsq
    _ ≤ 4 * q := hfl

/-- Model of `validate_dimensions` (`src/routes/visualize.rs` lines 191–212):
`true` models `Ok(())`.  `MIN_DIM = 320`, `MAX_DIM = 4096`,
`MAX_MEGAPIXELS = 10`. -/
def validateDimensions (width height : ℕ) : Bool :=
  if ¬((320 ≤ width ∧ width ≤ 4096) ∧ (320 ≤ height ∧ height ≤ 4096)) then false
  else if 10 < ((width * height : ℕ) : ℚ) / 1000000 then false
  else true

/-- Model of `width & !1`: clear the low bit. -/
def evenFloor (n : ℕ) : ℕ := n - n % 2

/-- Model of the evening step of the downscale branch: when `n % 2 != 0`, it
becomes `n.saturating_sub(1)`. -/
def oddSub1 (n : ℕ) : ℕ := if n % 2 ≠ 0 then n - 1 else n

/-- Model of `cap_mp4_dimensions_to_720p` (`src/routes/visualize.rs` lines 214–232).
`MAX_PIXELS_720P = 1280 * 720 = 921600`. -/
def capMp4Dimensions (width height : ℕ) : ℕ × ℕ :=
  if width * height ≤ 921600 then (evenFloor width, evenFloor height)
  else
    let scaledWidth :=
      oddSub1 (sqrtRound ((width : ℚ)^2 * 921600 / ((width : ℚ) * (height : ℚ))))
    let scaledHeight :=
      oddSub1 (sqrtRound ((height : ℚ)^2 * 921600 / ((width : ℚ) * (height : ℚ))))
    (max scaledWidth 320, max scaledHeight 320)

lemma oddSub1_even (n : ℕ) : oddSub1 n % 2 = 0 := by
  rw [oddSub1]
  by_cases h : n % 2 ≠ 0
  · rw [if_pos h]; omega
  · rw [if_neg h]; omega

lemma oddSub1_le (n : ℕ) : oddSub1 n ≤ n := by
  rw [oddSub1]
  by_cases h : n % 2 ≠ 0
  · rw [if_pos h]; omega
  · rw [if_neg h]

lemma le_oddSub1 (n : ℕ) : n - 1 ≤ oddSub1 n := by
  rw [oddSub1]
  by_cases h : n % 2 ≠ 0
  · rw [if_pos h]
  · rw [if_neg h]; omega

lemma max_even {a b : ℕ} (ha : a % 2 = 0) (hb : b % 2 = 0) : max a b % 2 = 0 := by
  rcases le_total a b with h | h
  · rw [max_eq_right h]; exact hb
  · rw [max_eq_left h]; exact ha

lemma validateDimensions_ranges (width height : ℕ)
    (hv : validateDimensions width height = true) :
    (320 ≤ width ∧ width ≤ 4096) ∧ (320 ≤ height ∧ height ≤ 4096) := by
  by_contra hcon
  rw [validateDimensions, if_pos hcon] at hv
  cases hv

/-- Unfolding of the downscale branch of `cap_mp4_dimensions_to_720p`. -/
lemma capMp4Dimensions_eq_downscale (width height : ℕ)
    (hbr : ¬ width * height ≤ 921600) :
    capMp4Dimensions width height =
      (max (oddSub1 (sqrtRound ((width : ℚ)^2 * 921600 / ((width : ℚ) * (height : ℚ))))) 320,
       max (oddSub1 (sqrtRound ((height : ℚ)^2 * 921600 / ((width : ℚ) * (height : ℚ))))) 320) := by
  rw [capMp4Dimensions, if_neg hbr]

/-- C2 (amended).  For every input accepted by dimension validation the cap
returns even dimensions.  When the input is within the 720p pixel budget the
output product stays within the budget (each dimension only loses its low
bit).  When the input exceeds the budget, both dimensions are scaled by the
common factor `√(budget/pixels)` — preserving the aspect ratio up to
rounding — then rounded, lowered by at most one for evenness and floored at
320; so each output dimension is at least 320 and, unless it was raised to
that floor, lies within 3/2 of its ideal rescaled value (whose square is
`dim² · budget / pixels`).  The output product can exceed the budget by the
rounding and floor slack (see the counterexample), so no unconditional
product bound holds in the downscale branch. -/
theorem capMp4Dimensions_spec (width height : ℕ)
    (hv : validateDimensions width height = true) :
    (capMp4Dimensions width height).1 % 2 = 0
    ∧ (capMp4Dimensions width height).2 % 2 = 0
    ∧ (width * height ≤ 921600 →
        (capMp4Dimensions width height).1 * (capMp4Dimensions width height).2 ≤ 921600)
    ∧ (921600 < width * height →
        320 ≤ (capMp4Dimensions width height).1
        ∧ 320 ≤ (capMp4Dimensions width height).2
        ∧ ((capMp4Dimensions width height).1 = 320 ∨
            ((2 * ((capMp4Dimensions width height).1 : ℚ) - 3)^2
                ≤ 4 * ((width : ℚ)^2 * 921600 / ((width : ℚ) * (height : ℚ)))
             ∧ 4 * ((width : ℚ)^2 * 921600 / ((width : ℚ) * (height : ℚ)))
                < (2 * ((capMp4Dimensions width height).1 : ℚ) + 3)^2))
        ∧ ((capMp4Dimensions width height).2 = 320 ∨
            ((2 * ((capMp4Dimensions width height).2 : ℚ) - 3)^2
                ≤ 4 * ((height : ℚ)^2 * 921600 / ((width : ℚ) * (height : ℚ)))
             ∧ 4 * ((height : ℚ)^2 * 921600 / ((width : ℚ) * (height : ℚ)))
                < (2 * ((capMp4Dimensions width height).2 : ℚ) + 3)^2))) := by
  obtain ⟨⟨hw1, _⟩, ⟨hh1, _⟩⟩ := validateDimensions_ranges width height hv
  have hwpos : (0:ℚ) < (width : ℚ) := by exact_mod_cast Nat.lt_of_lt_of_le (by norm_num) hw1
  have hhpos : (0:ℚ) < (height : ℚ) := by exact_mod_cast Nat.lt_of_lt_of_le (by norm_num) hh1
  have hqw : (0:ℚ) ≤ (width : ℚ)^2 * 921600 / ((width : ℚ) * (height : ℚ)) := by positivity
  have hqh : (0:ℚ) ≤ (height : ℚ)^2 * 921600 / ((width : ℚ) * (height : ℚ)) := by positivity
  by_cases hbr : width * height ≤ 921600
  · rw [capMp4Dimensions, if_pos hbr]
    refine ⟨by simp [evenFloor]; omega, by simp [evenFloor]; omega, ?_, ?_⟩
    · intro _
      calc evenFloor width * evenFloor height ≤ width * height :=
            Nat.mul_le_mul (by simp [evenFloor]) (by simp [evenFloor])
        _ ≤ 921600 := hbr
    · intro hgt
      omega
  · rw [capMp4Dimensions_eq_downscale width height hbr]
    refine ⟨max_even (oddSub1_even _) (by norm_num),
            max_even (oddSub1_even _) (by norm_num), ?_, ?_⟩
    · intro hle
      exact absurd hle hbr
    · intro _
      refine ⟨le_max_right _ _, le_max_right _ _, ?_, ?_⟩
      · rcases le_or_lt
          (oddSub1 (sqrtRound ((width : ℚ)^2 * 921600 / ((width : ℚ) * (height : ℚ))))) 320
          with hle | hgt
        · left
          simp only [max_eq_right hle]
        · right
          set nw := sqrtRound ((width : ℚ)^2 * 921600 / ((width : ℚ) * (height : ℚ))) with hnw
          have hmax : max (oddSub1 nw) 320 = oddSub1 nw := max_eq_left (le_of_lt hgt)
          rw [hmax]
          have hle1 : oddSub1 nw ≤ nw := oddSub1_le nw
          have hge1 : nw - 1 ≤ oddSub1 nw := le_oddSub1 nw
          have h1nw : 1 ≤ nw := by omega
          have hlow := sqrtRound_lower _ hqw h1nw
          have hup := sqrtRound_upper _ hqw
          constructor
          · calc (2 * ((oddSub1 nw : ℕ) : ℚ) - 3)^2 ≤ (2 * ((nw : ℕ) : ℚ) - 1)^2 := by
                  have hc : ((oddSub1 nw : ℕ) : ℚ) ≤ ((nw : ℕ) : ℚ) := by exact_mod_cast hle1
                  have h320 : (320:ℚ) < ((oddSub1 nw : ℕ) : ℚ) := by exact_mod_cast hgt
                  have hnn : (0:ℚ) ≤ 2 * ((oddSub1 nw : ℕ) : ℚ) - 3 := by linarith
                  exact pow_le_pow_left hnn (by linarith) 2
              _ ≤ 4 * ((width : ℚ)^2 * 921600 / ((width : ℚ) * (height : ℚ))) := hlow
          · calc 4 * ((width : ℚ)^2 * 921600 / ((width : ℚ) * (height : ℚ)))
                < (2 * ((nw : ℕ) : ℚ) + 1)^2 := hup
              _ ≤ (2 * ((oddSub1 nw : ℕ) : ℚ) + 3)^2 := by
                  have hc : ((nw : ℕ) : ℚ) ≤ ((oddSub1 nw : ℕ) : ℚ) + 1 := by
                    exact_mod_cast (by omega : nw ≤ oddSub1 nw + 1)
                  have hnn : (0:ℚ) ≤ 2 * ((nw : ℕ) : ℚ) + 1 := by positivity
                  exact pow_le_pow_left hnn (by linarith) 2
      · rcases le_or_lt
          (oddSub1 (sqrtRound ((height : ℚ)^2 * 921600 / ((width : ℚ) * (height : ℚ))))) 320
          with hle | hgt
        · left
          simp only [max_eq_right hle]
        · right
          set nh := sqrtRound ((height : ℚ)^2 * 921600 / ((width : ℚ) * (height : ℚ))) with hnh
          have hmax : max (oddSub1 nh) 320 = oddSub1 nh := max_eq_left (le_of_lt hgt)
          rw [hmax]
          have hle1 : oddSub1 nh ≤ nh := oddSub1_le nh
          have hge1 : nh - 1 ≤ oddSub1 nh := le_oddSub1 nh
          have h1nh : 1 ≤ nh := by omega
          have hlow := sqrtRound_lower _ hqh h1nh
          have hup := sqrtRound_upper _ hqh
          constructor
          · calc (2 * ((oddSub1 nh : ℕ) : ℚ) - 3)^2 ≤ (2 * ((nh : ℕ) : ℚ) - 1)^2 := by
                  have hc : ((oddSub1 nh : ℕ) : ℚ) ≤ ((nh : ℕ) : ℚ) := by exact_mod_cast hle1
                  have h320 : (320:ℚ) < ((oddSub1 nh : ℕ) : ℚ) := by exact_mod_cast hgt
                  have hnn : (0:ℚ) ≤ 2 * ((oddSub1 nh : ℕ) : ℚ) - 3 := by linarith
                  exact pow_le_pow_left hnn (by linarith) 2
              _ ≤ 4 * ((height : ℚ)^2 * 921600 / ((width : ℚ) * (height : ℚ))) := hlow
          · calc 4 * ((height : ℚ)^2 * 921600 / ((width : ℚ) * (height : ℚ)))
                < (2 * ((nh : ℕ) : ℚ) + 1)^2 := hup
              _ ≤ (2 * ((oddSub1 nh : ℕ) : ℚ) + 3)^2 := by
                  have hc : ((nh : ℕ) : ℚ) ≤ ((oddSub1 nh : ℕ) : ℚ) + 1 := by
                    exact_mod_cast (by omega : nh ≤ oddSub1 nh + 1)
                  have hnn : (0:ℚ) ≤ 2 * ((nh : ℕ) : ℚ) + 1 := by positivity
                  exact pow_le_pow_left hnn (by linarith) 2

/-- Witness for C2's amended theorem at 1920×1080 (valid, above the
budget). -/
theorem capMp4Dimensions_spec_witness :
    (capMp4Dimensions 1920 1080).1 % 2 = 0
    ∧ 320 ≤ (capMp4Dimensions 1920 1080).1 := by
  have h := capMp4Dimensions_spec 1920 1080
    (by rw [validateDimensions, if_neg (by norm_num), if_neg (by norm_num)])
  exact ⟨h.1, (h.2.2.2 (by norm_num)).1⟩

/-- Counterexample to C2 as stated: 3192×700 passes validation, yet the cap
returns 2050×450 whose product 922500 exceeds the 1280·720 = 921600 budget
(the rounded scaled dimensions 2050 and 450 are both even, so the evening
step does not shrink them below the ideal values ≈ 2049.999 × 449.561). -/
theorem capMp4Dimensions_counterexample :
    validateDimensions 3192 700 = true
    ∧ capMp4Dimensions 3192 700 = (2050, 450)
    ∧ 1280 * 720 < (capMp4Dimensions 3192 700).1 * (capMp4Dimensions 3192 700).2 := by
  have hw : sqrtRound ((3192:ℚ)^2 * 921600 / ((3192:ℚ) * (700:ℚ))) = 2050 := by
    rw [sqrtRound]
    have h1 : qtoNat (4 * ((3192:ℚ)^2 * 921600 / ((3192:ℚ) * (700:ℚ)))) = 16809984 := by
      rw [qtoNat]
      have hfl : ⌊4 * ((3192:ℚ)^2 * 921600 / ((3192:ℚ) * (700:ℚ)))⌋ = 16809984 := by
        norm_num
      rw [hfl]
      rfl
    rw [h1]
    have h2 : Nat.sqrt 16809984 = 4099 := by
      symm
      rw [Nat.eq_sqrt]
      constructor <;> norm_num
    rw [h2]
  have hh : sqrtRound ((700:ℚ)^2 * 921600 / ((3192:ℚ) * (700:ℚ))) = 450 := by
    rw [sqrtRound]
    have h1 : qtoNat (4 * ((700:ℚ)^2 * 921600 / ((3192:ℚ) * (700:ℚ)))) = 808421 := by
      rw [qtoNat]
      have hfl : ⌊4 * ((700:ℚ)^2 * 921600 / ((3192:ℚ) * (700:ℚ)))⌋ = 808421 := by
        norm_num
      rw [hfl]
      rfl
    rw [h1]
    have h2 : Nat.sqrt 808421 = 899 := by
      symm
      rw [Nat.eq_sqrt]
      constructor <;> norm_num
    rw [h2]
  have hcap : capMp4Dimensions 3192 700 = (2050, 450) := by
    rw [capMp4Dimensions_eq_downscale 3192 700 (by norm_num)]
    push_cast
    rw [hw, hh]
    norm_num [oddSub1]
  refine ⟨?_, hcap, ?_⟩
  · rw [validateDimensions, if_neg (by norm_num), if_neg (by norm_num)]
  · rw [hcap]
    norm_num

/-! ## Watermark injection (`src/pipeline/rasterize.rs`, `inject_watermark`)

Strings are modelled as `List Char` (Rust `String`/`&str` under byte-level
`contains`/`replacen`; all characters involved are ASCII, so char-level and
byte-level matching coincide).  `contains` is substring search, `replacen`
with count 1 replaces the leftmost occurrence.  "The result contains exactly
one element with the watermark id" is formalized as: exactly one position of
the string starts the watermark-id substring (`countPos · idStr = 1`). -/

/-- Model of `WATERMARK_ID = "rideviz-watermark"`. -/
def idStr : List Char := "rideviz-watermark".data

/-- The `"</svg>"` closing tag. -/
def closeTag : List Char := "</svg>".data

/-- Model of `str::contains`: some suffix of `s` starts with `pat`. -/
def containsSub : List Char → List Char → Bool
  | [], pat => pat.isPrefixOf []
  | c :: t, pat => pat.isPrefixOf (c :: t) || containsSub t pat

/-- Model of `str::replacen(pat, rep, 1)`: replace the leftmost occurrence of `pat`
(if any) by `rep`. -/
def replaceOnce : List Char → List Char → List Char → List Char
  | [], _, _ => []
  | c :: t, pat, rep =>
      if pat.isPrefixOf (c :: t) then rep ++ (c :: t).drop pat.length
      else c :: replaceOnce t pat rep

/-- Number of positions of `s` at which `pat` starts. -/
def countPos : List Char → List Char → ℕ
  | [], _ => 0
  | c :: t, pat => (if pat.isPrefixOf (c :: t) then 1 else 0) + countPos t pat

/-- The digit character of `d` (`48 = '0'`). -/
def digitChar (d : ℕ) : Char := Char.ofNat (48 + d)

/-- Decimal digits of `n`, most significant first, via structural fuel
(the fuel `n + 1` always suffices). -/
def natCharsAux : ℕ → ℕ → List Char
  | 0, _ => []
  | fuel + 1, n =>
      if n < 10 then [digitChar n]
      else natCharsAux fuel (n / 10) ++ [digitChar (n % 10)]

/-- The decimal rendering of `n`, as `format!` produces for a `u32`. -/
def natChars (n : ℕ) : List Char := natCharsAux (n + 1) n

lemma natCharsAux_digits (fuel : ℕ) :
    ∀ n, ∀ c ∈ natCharsAux fuel n, ∃ k, k < 10 ∧ c = digitChar k := by
  induction fuel with
  | zero => intro n c hc; cases hc
  | succ fuel ih =>
    intro n c hc
    rw [natCharsAux] at hc
    by_cases h : n < 10
    · rw [if_pos h] at hc
      rw [List.mem_singleton] at hc
      exact ⟨n, h, hc⟩
    · rw [if_neg h] at hc
      rcases List.mem_append.mp hc with h1 | h1
      · exact ih (n / 10) c h1
      · rw [List.mem_singleton] at h1
        exact ⟨n % 10, Nat.mod_lt n (by norm_num), h1⟩

lemma natChars_digits (n : ℕ) : ∀ c ∈ natChars n, ∃ k, k < 10 ∧ c = digitChar k :=
  natCharsAux_digits (n + 1) n

lemma natChars_ne_nil (n : ℕ) : natChars n ≠ [] := by
  rw [natChars, natCharsAux]
  by_cases h : n < 10
  · rw [if_pos h]; exact List.cons_ne_nil _ _
  · rw [if_neg h]
    intro hE
    exact List.cons_ne_nil _ _ (List.append_eq_nil.mp hE).2

lemma digit_not_mem_idStr : ∀ k, k < 10 → digitChar k ∉ idStr := by decide

lemma digit_ne_r : ∀ k, k < 10 → digitChar k ≠ 'r' := by decide

/-- A prefix stays a prefix of an extended list. -/
lemma isPrefixOf_append_mono (pat s y : List Char)
    (h : pat.isPrefixOf s = true) : pat.isPrefixOf (s ++ y) = true := by
  induction pat generalizing s with
  | nil => simp
  | cons p ps ih =>
    cases s with
    | nil => cases h
    | cons c t =>
      simp only [List.isPrefixOf, Bool.and_eq_true] at h ⊢
      exact ⟨h.1, ih t h.2⟩

/-- Splitting a list along one of its prefixes. -/
lemma eq_append_drop_of_isPrefixOf (pat s : List Char)
    (h : pat.isPrefixOf s = true) : s = pat ++ s.drop pat.length := by
  induction pat generalizing s with
  | nil => simp
  | cons p ps ih =>
    cases s with
    | nil => cases h
    | cons c t =>
      simp only [List.isPrefixOf, Bool.and_eq_true, beq_iff_eq] at h
      obtain ⟨rfl, h2⟩ := h
      have := ih t h2
      simp only [List.length_cons, List.drop_succ_cons, List.cons_append,
        List.cons.injEq, true_and]
      exact this

/-- Whether `pat` starts a list is unchanged by appending `y` whose head is
not a character of `pat`. -/
lemma isPrefixOf_append_iff (pat x y : List Char)
    (hy : ∀ c, y.head? = some c → c ∉ pat) :
    pat.isPrefixOf (x ++ y) = pat.isPrefixOf x := by
  induction x generalizing pat with
  | nil =>
    cases pat with
    | nil => simp
    | cons p ps =>
      simp only [List.nil_append]
      cases y with
      | nil => rfl
      | cons c ys =>
        have hne : ¬ (p == c) = true := by
          intro hbe
          have : p = c := by simpa using hbe
          exact hy c rfl (this ▸ List.mem_cons_self p ps)
        show (p == c && List.isPrefixOf ps ys) = List.isPrefixOf (p :: ps) []
        rw [Bool.and_eq_false_iff.mpr (Or.inl (by
          cases hbe : (p == c) with
          | true => exact absurd hbe hne
          | false => rfl))]
        rfl
  | cons a xs ih =>
    cases pat with
    | nil => simp
    | cons p ps =>
      show (p == a && List.isPrefixOf ps (xs ++ y)) = (p == a && List.isPrefixOf ps xs)
      rw [ih ps (fun c hc hmem => hy c hc (List.mem_cons_of_mem p hmem))]

/-- Occurrence positions split across an append whose right part starts with
a character not in the pattern (no occurrence straddles the boundary). -/
lemma countPos_append (pat x y : List Char)
    (hy : ∀ c, y.head? = some c → c ∉ pat) :
    countPos (x ++ y) pat = countPos x pat + countPos y pat := by
  induction x with
  | nil => simp [countPos]
  | cons a xs ih =>
    show (if pat.isPrefixOf ((a :: xs) ++ y) then 1 else 0) + countPos (xs ++ y) pat
        = ((if pat.isPrefixOf (a :: xs) then 1 else 0) + countPos xs pat) + countPos y pat
    rw [isPrefixOf_append_iff pat (a :: xs) y hy, ih]
    omega

/-- No occurrence can start inside `x` when the pattern's first character
does not occur in `x`. -/
lemma countPos_append_of_head_notin (pat x y : List Char) (hpat : pat ≠ [])
    (hph : ∀ p, pat.head? = some p → p ∉ x) :
    countPos (x ++ y) pat = countPos y pat := by
  induction x with
  | nil => rfl
  | cons a xs ih =>
    show (if pat.isPrefixOf ((a :: xs) ++ y) then 1 else 0) + countPos (xs ++ y) pat
        = countPos y pat
    cases pat with
    | nil => exact absurd rfl hpat
    | cons p ps =>
      have hne : ¬ (p == a) = true := by
        intro hbe
        have : p = a := by simpa using hbe
        exact hph p rfl (this ▸ List.mem_cons_self a xs)
      have hpre : List.isPrefixOf (p :: ps) ((a :: xs) ++ y) = false := by
        show (p == a && List.isPrefixOf ps (xs ++ y)) = false
        cases hbe : (p == a) with
        | true => exact absurd hbe hne
        | false => rfl
      rw [hpre]
      simp only [Bool.false_eq_true, if_false, Nat.zero_add]
      exact ih (fun q hq hmem => hph q hq (List.mem_cons_of_mem a hmem))

lemma countPos_eq_zero_of_not_contains (pat s : List Char)
    (hs : containsSub s pat = false) : countPos s pat = 0 := by
  induction s with
  | nil => rfl
  | cons c t ih =>
    rw [containsSub, Bool.or_eq_false_iff] at hs
    show (if pat.isPrefixOf (c :: t) then 1 else 0) + countPos t pat = 0
    rw [hs.1]
    simp only [Bool.false_eq_true, if_false, Nat.zero_add]
    exact ih hs.2

lemma containsSub_append_left (s y pat : List Char)
    (h : containsSub s pat = true) : containsSub (s ++ y) pat = true := by
  induction s with
  | nil =>
    cases pat with
    | nil =>
      cases y with
      | nil => rfl
      | cons c ys => rfl
    | cons p ps => cases h
  | cons c t ih =>
    rw [containsSub, Bool.or_eq_true] at h
    rw [List.cons_append, containsSub, Bool.or_eq_true]
    rcases h with h1 | h1
    · left
      have := isPrefixOf_append_mono pat (c :: t) y h1
      simpa using this
    · right
      exact ih h1

lemma containsSub_append_right (x s pat : List Char)
    (h : containsSub s pat = true) : containsSub (x ++ s) pat = true := by
  induction x with
  | nil => exact h
  | cons a xs ih =>
    rw [List.cons_append, containsSub, Bool.or_eq_true]
    right
    exact ih

/-- On a string that contains the pattern, `replacen(pat, rep, 1)` splits the
string around one occurrence and substitutes `rep` there. -/
lemma replaceOnce_split (s pat rep : List Char) (hpat : pat ≠ [])
    (h : containsSub s pat = true) :
    ∃ a b, s = a ++ pat ++ b ∧ replaceOnce s pat rep = a ++ rep ++ b := by
  induction s with
  | nil =>
    cases pat with
    | nil => exact absurd rfl hpat
    | cons p ps => cases h
  | cons c t ih =>
    by_cases hp : pat.isPrefixOf (c :: t) = true
    · refine ⟨[], (c :: t).drop pat.length, ?_, ?_⟩
      · simpa using eq_append_drop_of_isPrefixOf pat (c :: t) hp
      · rw [replaceOnce, if_pos hp]
        simp
    · have h' : containsSub t pat = true := by
        rw [containsSub, Bool.or_eq_true] at h
        rcases h with h1 | h1
        · exact absurd h1 hp
        · exact h1
      obtain ⟨a, b, hab, hrep⟩ := ih h'
      refine ⟨c :: a, b, ?_, ?_⟩
      · rw [List.cons_append, List.cons_append, ← hab]
      · rw [replaceOnce, if_neg hp, hrep]
        rfl

/-! The watermark node markup (`src/pipeline/rasterize.rs` lines 76–98),
split at the spliced numeric attributes.  The numeric layout values mirror
the source's `f32` arithmetic over exact rationals (`as u32` is `qtoNat`,
`.round()` is `qroundNat`, `.ceil()` is `qceilNat`; `saturating_sub` is `ℕ`
subtraction). -/

def wmFrag0 : List Char := "<g id=\"rideviz-watermark\"><rect x=\"".data

def wmFrag1 : List Char := "\" y=\"".data

def wmFrag2 : List Char := "\" width=\"".data

def wmFrag3 : List Char := "\" height=\"".data

def wmFrag4 : List Char := "\" rx=\"".data

def wmFrag5 : List Char :=
  "\" fill=\"rgb(255,255,255)\" fill-opacity=\"0.90\" stroke=\"rgb(0,0,0)\" stroke-opacity=\"0.92\" stroke-width=\"".data

def wmFrag6 : List Char := "\" /><text x=\"".data

def wmFrag7 : List Char := "\" y=\"".data

def wmFrag8 : List Char :=
  "\" font-family=\"Geist Pixel, DejaVu Sans Mono, DejaVu Sans, sans-serif\" font-size=\"".data

def wmFrag9 : List Char :=
  "\" text-anchor=\"middle\" fill=\"rgb(0,0,0)\" fill-opacity=\"0.92\">rideviz.online</text></g>".data

/-- The `nodes` string built by `inject_watermark` for the given output
dimensions. -/
def watermarkNodes (width height : ℕ) : List Char :=
  let fontSize := max (qtoNat ((height : ℚ) * (20/1000))) 13
  let paddingX := max (qtoNat ((fontSize : ℚ) * (7/10))) 8
  let paddingY := max (qtoNat ((fontSize : ℚ) * (5/10))) 6
  let marginBottom := max (qtoNat ((fontSize : ℚ) * (115/100))) 16
  let textX := width / 2
  let textY := height - marginBottom
  let approxTextWidth : ℚ := (14 : ℚ) * (fontSize : ℚ) * (62/100)
  let boxWidth := min (qceilNat (approxTextWidth + ((paddingX * 2 : ℕ) : ℚ))) (width - 12)
  let boxHeight := min (fontSize + paddingY * 2) (height - 12)
  let boxX := textX - boxWidth / 2
  let boxY := textY - (fontSize + paddingY)
  let radius := min (max (qroundNat ((fontSize : ℚ) * (3/10))) 3) 6
  let borderWidth := max (qroundNat ((fontSize : ℚ) * (8/100))) 1
  wmFrag0 ++ natChars boxX ++ wmFrag1 ++ natChars boxY ++ wmFrag2 ++ natChars boxWidth
    ++ wmFrag3 ++ natChars boxHeight ++ wmFrag4 ++ natChars radius ++ wmFrag5
    ++ natChars borderWidth ++ wmFrag6 ++ natChars textX ++ wmFrag7 ++ natChars textY
    ++ wmFrag8 ++ natChars fontSize ++ wmFrag9

/-- Model of `inject_watermark` (`src/pipeline/rasterize.rs` lines 64–105). -/
def injectWatermark (svg : List Char) (width height : ℕ) : List Char :=
  if containsSub svg idStr then svg
  else if containsSub svg closeTag then
    replaceOnce svg closeTag (watermarkNodes width height ++ closeTag)
  else svg ++ watermarkNodes width height

lemma injectWatermark_of_contains (svg : List Char) (width height : ℕ)
    (hc : containsSub svg idStr = true) :
    injectWatermark svg width height = svg := by
  rw [injectWatermark, if_pos hc]

/-- A boundary into a decimal number cannot be crossed by an occurrence of
the watermark id (the id has no digit characters). -/
lemma countPos_frag_num (frag : List Char) (k : ℕ) (rest : List Char) :
    countPos (frag ++ (natChars k ++ rest)) idStr
      = countPos frag idStr + countPos (natChars k ++ rest) idStr := by
  apply countPos_append
  intro c hc
  have hne := natChars_ne_nil k
  cases hnk : natChars k with
  | nil => exact absurd hnk hne
  | cons dd ds =>
    rw [hnk] at hc
    have hcd : c = dd := by
      have : ((dd :: ds) ++ rest).head? = some dd := rfl
      rw [this] at hc
      exact (Option.some.injEq _ _ ▸ hc).symm
    subst hcd
    have hmem : c ∈ natChars k := by
      rw [hnk]; exact List.mem_cons_self _ _
    obtain ⟨j, hj, hdj⟩ := natChars_digits k c hmem
    rw [hdj]
    exact digit_not_mem_idStr j hj

/-- A decimal number contains no start of the watermark id (the id starts
with `r`, numbers hold only digits). -/
lemma countPos_num (k : ℕ) (rest : List Char) :
    countPos (natChars k ++ rest) idStr = countPos rest idStr := by
  apply countPos_append_of_head_notin idStr (natChars k) rest (by decide)
  intro p hp hmem
  have hpr : p = 'r' := by
    have : idStr.head? = some 'r' := rfl
    rw [this] at hp
    exact (Option.some.injEq _ _ ▸ hp).symm
  subst hpr
  obtain ⟨j, hj, hdj⟩ := natChars_digits k 'r' hmem
  exact digit_ne_r j hj hdj.symm

/-- The generated node markup holds exactly one occurrence of the watermark
id, wherever it is embedded (provided what follows does not start with an id
character). -/
lemma countPos_nodes (width height : ℕ) (rest : List Char)
    (hrest : ∀ c, rest.head? = some c → c ∉ idStr) :
    countPos (watermarkNodes width height ++ rest) idStr = 1 + countPos rest idStr := by
  simp only [watermarkNodes, List.append_assoc]
  rw [countPos_frag_num, countPos_num, countPos_frag_num, countPos_num,
    countPos_frag_num, countPos_num, countPos_frag_num, countPos_num,
    countPos_frag_num, countPos_num, countPos_frag_num, countPos_num,
    countPos_frag_num, countPos_num, countPos_frag_num, countPos_num,
    countPos_frag_num, countPos_num]
  rw [countPos_append idStr wmFrag9 rest hrest]
  have h0 : countPos wmFrag0 idStr = 1 := by decide
  have h1 : countPos wmFrag1 idStr = 0 := by decide
  have h2 : countPos wmFrag2 idStr = 0 := by decide
  have h3 : countPos wmFrag3 idStr = 0 := by decide
  have h4 : countPos wmFrag4 idStr = 0 := by decide
  have h5 : countPos wmFrag5 idStr = 0 := by decide
  have h6 : countPos wmFrag6 idStr = 0 := by decide
  have h7 : countPos wmFrag7 idStr = 0 := by decide
  have h8 : countPos wmFrag8 idStr = 0 := by decide
  have h9 : countPos wmFrag9 idStr = 0 := by decide
  rw [h0, h1, h2, h3, h4, h5, h6, h7, h8, h9]
  omega

lemma watermarkNodes_contains (width height : ℕ) :
    containsSub (watermarkNodes width height) idStr = true := by
  simp only [watermarkNodes, List.append_assoc]
  exact containsSub_append_left _ _ _ (by decide)

set_option maxHeartbeats 1600000 in
/-- C9 (amended).  Watermark injection is idempotent for every SVG string;
and for every SVG string that does not already contain the watermark id, the
result contains exactly one occurrence of the watermark id. -/
theorem injectWatermark_spec (svg : List Char) (width height : ℕ) :
    injectWatermark (injectWatermark svg width height) width height
      = injectWatermark svg width height
    ∧ (containsSub svg idStr = false →
        countPos (injectWatermark svg width height) idStr = 1) := by
  constructor
  · by_cases hc : containsSub svg idStr = true
    · have h1 := injectWatermark_of_contains svg width height hc
      rw [h1]
      exact h1
    · have hc' : ¬ containsSub svg idStr = true := hc
      by_cases hct : containsSub svg closeTag = true
      · obtain ⟨a, b, hab, hrep⟩ := replaceOnce_split svg closeTag
          (watermarkNodes width height ++ closeTag) (by decide) hct
        have hres : injectWatermark svg width height
            = a ++ (watermarkNodes width height ++ closeTag) ++ b := by
          rw [injectWatermark, if_neg hc', if_pos hct, hrep]
        have hcontains : containsSub (injectWatermark svg width height) idStr = true := by
          rw [hres]
          exact containsSub_append_left
            (a ++ (watermarkNodes width height ++ closeTag)) b idStr
            (containsSub_append_right a (watermarkNodes width height ++ closeTag) idStr
              (containsSub_append_left (watermarkNodes width height) closeTag idStr
                (watermarkNodes_contains width height)))
        exact injectWatermark_of_contains _ width height hcontains
      · have hres : injectWatermark svg width height
            = svg ++ watermarkNodes width height := by
          rw [injectWatermark, if_neg hc', if_neg hct]
        have hcontains : containsSub (injectWatermark svg width height) idStr = true := by
          rw [hres]
          exact containsSub_append_right svg (watermarkNodes width height) idStr
            (watermarkNodes_contains width height)
        exact injectWatermark_of_contains _ width height hcontains
  · intro hcf
    have hc' : ¬ containsSub svg idStr = true := by
      rw [hcf]
      exact Bool.false_ne_true
    by_cases hct : containsSub svg closeTag = true
    · obtain ⟨a, b, hab, hrep⟩ := replaceOnce_split svg closeTag
        (watermarkNodes width height ++ closeTag) (by decide) hct
      have hres : injectWatermark svg width height
          = a ++ (watermarkNodes width height ++ closeTag) ++ b := by
        rw [injectWatermark, if_neg hc', if_pos hct, hrep]
      have hca : containsSub a idStr = false := by
        cases hE : containsSub a idStr with
        | false => rfl
        | true =>
          exfalso
          apply hc'
          rw [hab]
          exact containsSub_append_left (a ++ closeTag) b idStr
            (containsSub_append_left a closeTag idStr hE)
      have hcb : containsSub b idStr = false := by
        cases hE : containsSub b idStr with
        | false => rfl
        | true =>
          exfalso
          apply hc'
          rw [hab]
          exact containsSub_append_right (a ++ closeTag) b idStr hE
      rw [hres, List.append_assoc a (watermarkNodes width height ++ closeTag) b,
        List.append_assoc (watermarkNodes width height) closeTag b]
      rw [countPos_append idStr a
        (watermarkNodes width height ++ (closeTag ++ b)) ?hheadA]
      case hheadA =>
        intro c hcc
        have hhd : (watermarkNodes width height ++ (closeTag ++ b)).head? = some '<' := by
          simp only [watermarkNodes, List.append_assoc]
          rfl
        rw [hhd] at hcc
        have : c = '<' := (Option.some.injEq _ _ ▸ hcc).symm
        rw [this]
        decide
      rw [countPos_eq_zero_of_not_contains idStr a hca]
      rw [countPos_nodes width height (closeTag ++ b) ?hheadB]
      case hheadB =>
        intro c hcc
        have hhd : (closeTag ++ b).head? = some '<' := rfl
        rw [hhd] at hcc
        have : c = '<' := (Option.some.injEq _ _ ▸ hcc).symm
        rw [this]
        decide
      rw [countPos_append_of_head_notin idStr closeTag b (by decide) ?hheadC]
      case hheadC =>
        intro p hp
        have : idStr.head? = some 'r' := rfl
        rw [this] at hp
        have hpr : p = 'r' := (Option.some.injEq _ _ ▸ hp).symm
        rw [hpr]
        decide
      rw [countPos_eq_zero_of_not_contains idStr b hcb]
    · have hres : injectWatermark svg width height
          = svg ++ watermarkNodes width height := by
        rw [injectWatermark, if_neg hc', if_neg hct]
      rw [hres]
      rw [countPos_append idStr svg (watermarkNodes width height) ?hheadD]
      case hheadD =>
        intro c hcc
        have hhd : (watermarkNodes width height).head? = some '<' := by
          simp only [watermarkNodes, List.append_assoc]
          rfl
        rw [hhd] at hcc
        have : c = '<' := (Option.some.injEq _ _ ▸ hcc).symm
        rw [this]
        decide
      rw [countPos_eq_zero_of_not_contains idStr svg hcf]
      rw [← List.append_nil (watermarkNodes width height),
        countPos_nodes width height [] (by intro c hcc; cases hcc)]
      rfl

/-- Witness for C9's amended theorem: injecting into a minimal SVG (which
does not contain the watermark id) yields exactly one occurrence of the
id. -/
theorem injectWatermark_spec_witness :
    countPos (injectWatermark "<svg width=\"100\" height=\"100\"></svg>".data 100 100)
      idStr = 1 :=
  (injectWatermark_spec "<svg width=\"100\" height=\"100\"></svg>".data 100 100).2
    (by decide)

/-- Counterexample to C9 as stated: a string that already holds the
watermark-id substring twice is returned unchanged (the guard fires), so the
result does not contain exactly one watermark id — the "exactly one" part of
the claim fails for such inputs, although idempotence holds for all. -/
theorem injectWatermark_counterexample :
    ¬ (countPos (injectWatermark (idStr ++ idStr) 100 100) idStr = 1) ∧
    countPos (injectWatermark (idStr ++ idStr) 100 100) idStr = 2 := by
  constructor
  · intro h
    have h2 : countPos (injectWatermark (idStr ++ idStr) 100 100) idStr = 2 := by
      rw [injectWatermark_of_contains _ _ _ (by decide)]
      decide
    rw [h2] at h
    cases h
  · rw [injectWatermark_of_contains _ _ _ (by decide)]
    decide

end Rideviz
